import Mathlib

/-!
# Verification of the dew command-bus core

A shallow embedding of the dew repository's core (tree.go, mux.go, dew.go,
context.go) together with proofs about it.

Conventions of the embedding:
* Go strings are opaque byte sequences here modelled as `List Char`
  (one `Char` per byte); keys never need more than byte comparisons.
* Go's `*handler` pointers are modelled as opaque `Nat` identifiers.
* Panics are modelled as `Except` error results.
* The two Go loops without a structurally decreasing argument
  (`node.insert`, `nodes.findEdge`) and the recursive `node.findRoute`
  are written with an explicit fuel parameter so that every definition
  is executable by kernel reduction; the public wrappers instantiate
  the fuel with a bound that is proved sufficient on the states the
  program can actually build.
-/

set_option maxHeartbeats 1000000

namespace Dew

/-- `OpType` from mux.go: a `uint8` bitmask. -/
abbrev OpType := Nat

/-- `ACTION OpType = 1 << iota` (mux.go). -/
def ACTION : OpType := 1

/-- `QUERY` (mux.go). -/
def QUERY : OpType := 2

/-- `ALL = ACTION | QUERY` (mux.go). -/
def ALL : OpType := 3

/-- The zero byte, Go's zero value for `byte`. -/
def zeroByte : Char := Char.ofNat 0

/-- `node` from tree.go: a stored prefix `pre` (field `prefix` in Go), the
handler entry (`handlerEntry`: an optional pair of the operation kind and an
opaque handler identifier), the list of children, and the single-byte edge
label. -/
inductive Node : Type where
  | mk (pre : List Char) (entry : Option (OpType × Nat)) (children : List Node) (label : Char)

/-- The stored prefix (`node.prefix`). -/
def Node.pre : Node → List Char
  | .mk p _ _ _ => p

/-- The handler entry (`node.handler`); `none` models a `handlerEntry` whose
`handler` pointer is nil. -/
def Node.entry : Node → Option (OpType × Nat)
  | .mk _ e _ _ => e

/-- The children list (`node.children`). -/
def Node.children : Node → List Node
  | .mk _ _ c _ => c

/-- The edge label (`node.label`). -/
def Node.label : Node → Char
  | .mk _ _ _ l => l

instance : Inhabited Node := ⟨.mk [] none [] zeroByte⟩

/-- `node.isLeaf` / `handlerEntry.isEmpty` combined: the node carries a
handler. -/
def Node.isLeaf (n : Node) : Bool := n.entry.isSome

/-- Whether the node's handler entry is present and registered for `op`
(tree.go findRoute: `xn.handler.handler != nil && xn.handler.op == op`). -/
def entryMatches (n : Node) (op : OpType) : Bool :=
  match n.entry with
  | some (o, _) => o = op
  | none => false

/-- `node.getEdge` from tree.go: linear scan of the children for the label. -/
def getEdgeL (label : Char) : List Node → Option Node
  | [] => none
  | c :: rest => if c.label = label then some c else getEdgeL label rest

/-- `node.getEdge` as a method on the node. -/
def Node.getEdge (n : Node) (label : Char) : Option Node := getEdgeL label n.children

/-- `ns[idx]` for the Go `int` index used by `nodes.findEdge`; out-of-range
access (which Go would panic on, and which never happens in `findEdge`)
returns the default node. -/
def nthNode (ns : List Node) (i : Int) : Node :=
  if h : 0 ≤ i ∧ i.toNat < ns.length then ns.get ⟨i.toNat, h.2⟩ else default

/-- The binary-search loop of `nodes.findEdge` (tree.go).  `i`, `j` are the Go
`int` cursors, `idx0` the value of the Go variable `idx` on loop entry.  The
Go `else` branch sets `i = num` and exits the loop with `idx` unchanged, so it
is rendered as returning `idx` directly.  Fuel: the loop runs at most
`len + 1` times since `j - i` strictly decreases. -/
def findEdgeLoop (ns : List Node) (label : Char) : Nat → Int → Int → Int → Int
  | 0, _, _, idx0 => idx0
  | fuel + 1, i, j, idx0 =>
    if i ≤ j then
      let idx := i + (j - i) / 2
      if (nthNode ns idx).label < label then findEdgeLoop ns label fuel (idx + 1) j idx
      else if label < (nthNode ns idx).label then findEdgeLoop ns label fuel i (idx - 1) idx
      else idx
    else idx0

/-- `nodes.findEdge` from tree.go: binary search over the children sorted by
label. -/
def findEdge (ns : List Node) (label : Char) : Option Node :=
  if ns.length = 0 then none
  else
    let idx := findEdgeLoop ns label (ns.length + 1) 0 ((ns.length : Int) - 1) 0
    let nd := nthNode ns idx
    if nd.label = label then some nd else none

/-- `longestPrefixLen` from tree.go: length of the longest common prefix. -/
def longestPrefixLen : List Char → List Char → Nat
  | a :: as, b :: bs => if a = b then longestPrefixLen as bs + 1 else 0
  | _, _ => 0

/-- `strings.HasPrefix s p` on byte lists. -/
def hasPrefixCh : List Char → List Char → Bool
  | _, [] => true
  | [], _ :: _ => false
  | a :: s, b :: p => a = b && hasPrefixCh s p

/-- Insertion into a label-sorted list; the building block of the model of
`nodes.Sort` (tree.go sorts children by `label` ascending). -/
def insertByLabel (c : Node) : List Node → List Node
  | [] => [c]
  | d :: rest => if c.label ≤ d.label then c :: d :: rest else d :: insertByLabel c rest

/-- `nodes.Sort` (tree.go): sort the children by label, modelled as insertion
sort (the labels are distinct in every state the program builds, so any
sorting algorithm yields this result). -/
def sortNodes : List Node → List Node
  | [] => []
  | c :: rest => insertByLabel c (sortNodes rest)

/-- `node.addChild` (tree.go): append the child, then re-sort.  Go returns the
child and updates the parent in place; the functional rendering returns the
updated parent. -/
def Node.addChild (n : Node) (child : Node) : Node :=
  .mk n.pre n.entry (sortNodes (n.children ++ [child])) n.label

/-- The node with its label replaced (used by `replaceChild`, which assigns
`n.children[i].label = label` after storing the new child). -/
def Node.withLabel (n : Node) (l : Char) : Node := .mk n.pre n.entry n.children l

/-- `node.replaceChild` (tree.go) on the children list: replace the first
child carrying `label`; `none` models the "replacing missing child" panic. -/
def replaceChildL (label : Char) (child : Node) : List Node → Option (List Node)
  | [] => none
  | d :: rest =>
    if d.label = label then some (child.withLabel label :: rest)
    else (replaceChildL label child rest).map (d :: ·)

/-- The panic outcomes of registration, plus fuel exhaustion of the embedding
(never reached from states the program builds). -/
inductive InsErr : Type where
  | duplicateHandler  -- panic "dew: multiple handlers registered for the same command"
  | indexRange        -- Go index-out-of-range panic: `search[0]` on an empty remainder
  | missingChild      -- panic "dew: replacing missing child"
  | outOfFuel
deriving DecidableEq

/-- `node.setHandler` / `handlerEntry.insert` (tree.go): fails when a handler
is already present, whatever its operation kind. -/
def Node.setHandler (n : Node) (op : OpType) (h : Nat) : Except InsErr Node :=
  match n.entry with
  | some _ => .error .duplicateHandler
  | none => .ok (.mk n.pre (some (op, h)) n.children n.label)

/-- `node.insert` (tree.go) with fuel; each loop iteration of the Go code is
one recursive call.  Go updates the tree through pointers and returns the
node that received the handler; the functional rendering returns the updated
subtree. -/
def insertF : Nat → Node → OpType → List Char → Nat → Except InsErr Node
  | 0, _, _, _, _ => .error .outOfFuel
  | fuel + 1, n, op, search, h =>
    match search with
    | [] => n.setHandler op h
    | c :: _ =>
      match n.getEdge c with
      | none =>
        -- no edge: attach a handler leaf holding the whole remaining search
        .ok (n.addChild (.mk search (some (op, h)) [] c))
      | some child =>
        let l := longestPrefixLen search child.pre
        if l = child.pre.length then
          -- the common prefix covers the child's prefix: descend
          match insertF fuel child op (search.drop l) h with
          | .error e => .error e
          | .ok child' =>
            match replaceChildL c child' n.children with
            | none => .error .missingChild
            | some ch' => .ok (.mk n.pre n.entry ch' n.label)
        else
          -- split the child; Go panics on `search[0]` if the remainder is empty
          let demoted : Node :=
            .mk (child.pre.drop l) child.entry child.children (child.pre.getD l zeroByte)
          match search.drop l with
          | [] => .error .indexRange
          | c2 :: _ =>
            let subchild : Node := .mk (search.drop l) (some (op, h)) [] c2
            let mid : Node :=
              Node.addChild (Node.addChild (.mk (search.take l) none [] c) demoted) subchild
            match replaceChildL c mid n.children with
            | none => .error .missingChild
            | some ch' => .ok (.mk n.pre n.entry ch' n.label)

/-- `node.insert` with the canonical fuel `|key| + 1`, sufficient on every
state the program builds. -/
def Node.insert (n : Node) (op : OpType) (key : List Char) (h : Nat) : Except InsErr Node :=
  insertF (key.length + 1) n op key h

/-- `node.findRoute` (tree.go) with fuel; one recursive call per Go
recursion. -/
def findRouteF : Nat → Node → OpType → List Char → Option Node
  | 0, _, _, _ => none
  | fuel + 1, n, op, search =>
    let label := match search with | [] => zeroByte | c :: _ => c
    match findEdge n.children label with
    | none => none
    | some xn =>
      if hasPrefixCh search xn.pre then
        let xsearch := search.drop xn.pre.length
        if xsearch.isEmpty && entryMatches xn op then some xn
        else findRouteF fuel xn op xsearch
      else none

/-- `node.findRoute` with the canonical fuel `|key| + 1`, sufficient on every
state the program builds. -/
def Node.findRoute (n : Node) (op : OpType) (key : List Char) : Option Node :=
  findRouteF (key.length + 1) n op key

/-- The zero-valued root node a fresh `Mux` starts with. -/
def emptyNode : Node := .mk [] none [] zeroByte

/-- A registration sequence applied to the empty trie; errors abort, as the
corresponding Go panics would. -/
def buildTrie (ops : List (OpType × List Char × Nat)) : Except InsErr Node :=
  ops.foldlM (fun t x => t.insert x.1 x.2.1 x.2.2) emptyNode

/-- Trie states the program can build: some sequence of successful
registrations of (nonempty) type keys produces them.  Type keys are Go
`reflect` type strings and are never empty. -/
def Reachable (t : Node) : Prop :=
  ∃ ops : List (OpType × List Char × Nat),
    (∀ x ∈ ops, x.2.1 ≠ []) ∧ buildTrie ops = .ok t

/-- Modelled from the spec's description of lookup, for comparison with
`findRoute`: "at each step, locate the child whose label matches the next
byte of the remaining search string; fail if no such child or if the child's
stored prefix is not a prefix of the remaining search string; otherwise
consume and recurse.  A match is successful only when the search key is fully
consumed exactly at a leaf that carries a handler for the requested
operation-kind."  `SpecFound op n key r` holds when that descent from `n`
along `key` succeeds at the node `r`. -/
inductive SpecFound (op : OpType) : Node → List Char → Node → Prop where
  | here (n : Node) (h : entryMatches n op = true) : SpecFound op n [] n
  | step (n c r : Node) (b : Char) (bs : List Char)
      (hc : c ∈ n.children) (hl : c.label = b)
      (hp : hasPrefixCh (b :: bs) c.pre = true)
      (hrec : SpecFound op c ((b :: bs).drop c.pre.length) r) :
      SpecFound op n (b :: bs) r

/-- The structural invariant of the trie (spec §3 TrieNode): at every node
the children are strictly sorted by edge label (hence unique by label), and
every child's label is the first byte of its nonempty stored prefix. -/
inductive Inv : Node → Prop where
  | mk (p : List Char) (e : Option (OpType × Nat)) (ch : List Node) (l : Char)
      (hch : ∀ c ∈ ch, Inv c)
      (hsort : ch.Pairwise (fun a b => a.label < b.label))
      (hpre : ∀ c ∈ ch, c.pre ≠ [] ∧ c.pre.head? = some c.label) :
      Inv (.mk p e ch l)

/-- The registration sequence of the spec's prefix-splitting property. -/
def exampleOps : List (OpType × List Char × Nat) :=
  [(ACTION, "CreateUser".toList, 1), (ACTION, "CreateUser2".toList, 2),
   (ACTION, "CreateAccount".toList, 3)]

/-- The trie those three registrations build. -/
def exampleTrie : Node := (buildTrie exampleOps).toOption.getD emptyNode

/-- The one-key trie used as a duplicate-registration witness. -/
def exampleOneKey : Node :=
  (emptyNode.insert ACTION "CreateUser".toList 1).toOption.getD emptyNode

/-! ## Middleware and engine model (mux.go, dew.go, context.go)

Middleware functions are effectful in Go: they mutate the shared
`*BusContext` (in particular its cursor `mwsIdx`) and perform external
effects (the counters and recorders of the spec's testable properties).
The embedding threads an explicit state: the current context's cursor and
an event log recording every observable invocation. -/

/-- An observable event: a per-call (dispatch/query-scope) middleware link
running its before or after half, a per-command link doing the same, an
action's `Validate` being invoked, a handler running, or a terminal emitting
an event. -/
inductive Ev : Type where
  | dBefore (i : Nat)
  | dAfter (i : Nat)
  | cBefore (i : Nat)
  | cAfter (i : Nat)
  | validated (i : Nat)
  | handled (i : Nat)
  | term (i : Nat)
deriving DecidableEq

/-- Go error values as built by dew: distinct base errors, the two
`errors.New` sentinels of dew.go, `fmt.Errorf("%w: %w", ErrValidationFailed,
e)`, and `errors.Join`. -/
inductive GoErr : Type where
  | sentinel (n : Nat)
  | busNotFound
  | errValidationFailed
  | wrapVF (e : GoErr)
  | joined (a b : GoErr)
deriving DecidableEq

/-- `errors.Is err target`: equality, or a match somewhere down the unwrap
tree (`wrapVF` unwraps to `ErrValidationFailed` and the wrapped error,
`joined` to both members). -/
def GoErr.is : GoErr → GoErr → Bool
  | .wrapVF e, t => (GoErr.wrapVF e = t) || (GoErr.errValidationFailed = t) || GoErr.is e t
  | .joined a b, t => (GoErr.joined a b = t) || GoErr.is a t || GoErr.is b t
  | e, t => e = t

/-- The state a middleware invocation sees: the active `BusContext`'s cursor
`mwsIdx` (context.go) and the external event log. -/
structure MState : Type where
  cursorIdx : Nat
  log : List Ev
deriving DecidableEq

/-- A `Middleware.Handle`-shaped computation: it may mutate the context and
the external world and returns a Go `error`. -/
def Mid : Type := MState → MState × Option GoErr

/-- The `middleware` struct of mux.go: an operation-kind bitmask and a
wrapper from the next `Middleware` to a `Middleware`. -/
structure MwLink : Type where
  op : OpType
  fn : Mid → Mid

/-- `filterMiddleware` from mux.go: keep the links whose bitmask intersects
`op`. -/
def filterMiddleware (op : OpType) (mws : List MwLink) : List MwLink :=
  mws.filter (fun mw => (mw.op &&& op) != 0)

/-- `chain` from mux.go: filter by operation kind, then wrap the command
outer-to-inner (`h := mws[len-1].fn(command); h = mws[i].fn(h)` downwards),
which is a right fold; an empty filtered list yields the command itself. -/
def chain (op : OpType) (mws : List MwLink) (command : Mid) : Mid :=
  (filterMiddleware op mws).foldr (fun mw h => mw.fn h) command

/-- The cursor-based `exec` chain of mux.go, with fuel (Go re-creates the
composed closure lazily inside itself; each re-entry advances the shared
cursor, so `len + 1` nested entries suffice for middlewares that call
`next` once). -/
def execF : Nat → List MwLink → Mid → MState → MState × Option GoErr
  | 0, _, command, st => command st
  | fuel + 1, mws, command, st =>
    if h : st.cursorIdx < mws.length then
      (mws.get ⟨st.cursorIdx, h⟩).fn (execF fuel mws command)
        { st with cursorIdx := st.cursorIdx + 1 }
    else command st

/-- `exec` from mux.go: the per-call chain; an empty middleware list returns
the command itself. -/
def exec (mws : List MwLink) (command : Mid) : Mid :=
  if mws.isEmpty then command else execF (mws.length + 1) mws command

/-- A recording per-call middleware link with identity `i`: logs its before
half, calls `next` once, logs its after half, passes the error through.
`UseDispatch`/`UseQuery` store links with a zero bitmask (`addMiddleware`
in mux.go sets no `op`). -/
def recD (i : Nat) : MwLink :=
  ⟨0, fun next st =>
    let r := next { st with log := st.log ++ [.dBefore i] }
    ({ r.1 with log := r.1.log ++ [.dAfter i] }, r.2)⟩

/-- A recording per-command middleware link with bitmask `m` and identity
`i`. -/
def recC (m : OpType) (i : Nat) : MwLink :=
  ⟨m, fun next st =>
    let r := next { st with log := st.log ++ [.cBefore i] }
    ({ r.1 with log := r.1.log ++ [.cAfter i] }, r.2)⟩

/-- A terminal that records the given events and returns the given error. -/
def termMid (evs : List Ev) (err : Option GoErr) : Mid :=
  fun st => ({ st with log := st.log ++ evs }, err)

/-- A command submitted to the engine: an identity, the outcome of its
deferred resolution (`Resolve` in dew.go), of its `Validate` step (actions
only), and of its handler. -/
structure CmdSpec : Type where
  id : Nat
  resolveErr : Option GoErr := none
  valErr : Option GoErr := none
  hErr : Option GoErr := none
deriving DecidableEq

/-- Invoking the resolved handler for a command: records the invocation and
returns the handler's error. -/
def cmdHandler (a : CmdSpec) : Mid :=
  fun st => ({ st with log := st.log ++ [.handled a.id] }, a.hErr)

/-- The `for _, action := range actions { action.Resolve(bus) }` loop of
dew.go: the first resolution error aborts. -/
def resolveAll : List CmdSpec → Option GoErr
  | [] => none
  | a :: rest => match a.resolveErr with
    | some e => some e
    | none => resolveAll rest

/-- The batch-processing closure passed by `DispatchMulti` to the dispatch
chain (dew.go lines 45-55): for each action in submission order, invoke its
`Validate` (failure wraps the error with `ErrValidationFailed` and aborts),
then run the handler's per-command chain (`mux.dispatch(ACTION, ...)`);
a handler error aborts the batch. -/
def runBatch (cmws : List MwLink) : List CmdSpec → Mid
  | [], st => (st, none)
  | a :: rest, st =>
    match a.valErr with
    | some e => ({ st with log := st.log ++ [.validated a.id] }, some (.wrapVF e))
    | none =>
      match chain ACTION cmws (cmdHandler a) { st with log := st.log ++ [.validated a.id] } with
      | (st2, some e) => (st2, some e)
      | (st2, none) => runBatch cmws rest st2

/-- The caller's `context.Context`, reduced to what the engine reads from
it: whether a bus is bound in it. -/
structure OuterCtx : Type where
  hasBus : Bool

/-- `DispatchMulti` from dew.go.  The pool is modelled by its number of idle
contexts: `Get` takes one (allocating via `New` when empty), the deferred
`Put` returns it.  Returns the final pool size, the final event log and the
returned error. -/
def DispatchMultiM (dmws cmws : List MwLink) (octx : OuterCtx)
    (actions : List CmdSpec) (pool : Nat) (log0 : List Ev) :
    Nat × List Ev × Option GoErr :=
  if actions.isEmpty then (pool, log0, none)
  else if !octx.hasBus then (pool, log0, some .busNotFound)
  else match resolveAll actions with
    | some e => (pool, log0, some e)
    | none =>
      -- rctx := pool.Get(); rctx.Reset(): cursor zeroed
      let st0 : MState := { cursorIdx := 0, log := log0 }
      let r := exec dmws (runBatch cmws actions) st0
      -- defer pool.Put(rctx)
      (pool - 1 + 1, r.1.log, r.2)

/-- One fan-out branch of `QueryAsync` (dew.go): the goroutine takes a fresh
context from the pool, `Reset`s it and `Copy`s the spawning context (so the
branch starts with the outer, already-advanced cursor), then re-enters the
query-scope chain around `dispatch(QUERY, ...)` for its own query.  The
branch's observable events are returned as its own log. -/
def runBranch (qmws cmws : List MwLink) (outerCursor : Nat) (q : CmdSpec) :
    MState × Option GoErr :=
  exec qmws (chain QUERY cmws (cmdHandler q)) { cursorIdx := outerCursor, log := [] }

/-- `errors.Join` accumulation of dew.go lines 140-147: the first collected
error stands alone, each further one is joined on the right. -/
def joinErrs : List GoErr → Option GoErr
  | [] => none
  | e :: rest => some (rest.foldl (fun acc x => GoErr.joined acc x) e)

/-- The fan-out closure of `QueryAsync`: run every branch (each with its own
copied context), wait for all, and join the collected errors.  The branches
run concurrently in Go; the embedding lists their (independent) effects in
spawn order, one representative schedule. -/
def fanOut (qmws cmws : List MwLink) (queries : List CmdSpec) : Mid :=
  fun st =>
    let results := queries.map (runBranch qmws cmws st.cursorIdx)
    ({ st with log := st.log ++ (results.map (fun r => r.1.log)).flatten },
     joinErrs (results.filterMap (fun r => r.2)))

/-- `QueryAsync` from dew.go: empty batch, bus lookup, resolution, then the
query-scope chain around the fan-out. -/
def QueryAsyncM (qmws cmws : List MwLink) (octx : OuterCtx)
    (queries : List CmdSpec) (pool : Nat) (log0 : List Ev) :
    Nat × List Ev × Option GoErr :=
  if queries.isEmpty then (pool, log0, none)
  else if !octx.hasBus then (pool, log0, some .busNotFound)
  else match resolveAll queries with
    | some e => (pool, log0, some e)
    | none =>
      let st0 : MState := { cursorIdx := 0, log := log0 }
      let r := exec qmws (fanOut qmws cmws queries) st0
      (pool - 1 + 1, r.1.log, r.2)

/-! ## Scope (mux) model for Group/Use (mux.go) -/

/-- The middleware state of a `mux`: the three lists indexed in Go by
`mCmd`, `mDispatch`, `mQuery`. -/
structure MuxM : Type where
  cmdMws : List MwLink
  dispatchMws : List MwLink
  queryMws : List MwLink

/-- `mux.Use` (mux.go): append per-command links carrying the bitmask. -/
def MuxM.use (mx : MuxM) (op : OpType) (fns : List (Mid → Mid)) : MuxM :=
  { mx with cmdMws := mx.cmdMws ++ fns.map (fun f => ⟨op, f⟩) }

/-- `mux.UseDispatch` via `addMiddleware` (mux.go): links stored with the
zero bitmask. -/
def MuxM.useDispatch (mx : MuxM) (fns : List (Mid → Mid)) : MuxM :=
  { mx with dispatchMws := mx.dispatchMws ++ fns.map (fun f => ⟨0, f⟩) }

/-- `mux.UseQuery` via `addMiddleware` (mux.go). -/
def MuxM.useQuery (mx : MuxM) (fns : List (Mid → Mid)) : MuxM :=
  { mx with queryMws := mx.queryMws ++ fns.map (fun f => ⟨0, f⟩) }

/-- `mux.child` (mux.go): the child starts with a value copy of the parent's
three middleware lists (`make` + `copy` into fresh slices). -/
def MuxM.child (mx : MuxM) : MuxM :=
  { cmdMws := mx.cmdMws, dispatchMws := mx.dispatchMws, queryMws := mx.queryMws }

/-- A middleware-registration call on a scope. -/
inductive UseOp : Type where
  | use (op : OpType) (fns : List (Mid → Mid))
  | useDispatch (fns : List (Mid → Mid))
  | useQuery (fns : List (Mid → Mid))

/-- Apply one registration call. -/
def applyUse (mx : MuxM) : UseOp → MuxM
  | .use op fns => mx.use op fns
  | .useDispatch fns => mx.useDispatch fns
  | .useQuery fns => mx.useQuery fns

/-- A parent scope together with a child created from it by `Group`. -/
structure ScopePair : Type where
  parent : MuxM
  child : MuxM

/-- `Group`: create the child scope (the configuration function then runs on
the child; it is irrelevant to the parent-mutation claim). -/
def mkChildPair (p : MuxM) : ScopePair := ⟨p, p.child⟩

/-- A registration call performed on the parent after the child exists. -/
def parentUse (w : ScopePair) (u : UseOp) : ScopePair :=
  { w with parent := applyUse w.parent u }

/-- Count of per-call before-events (one per invocation of a per-call
link). -/
def countD (l : List Ev) : Nat :=
  (l.filter (fun e => match e with | .dBefore _ => true | _ => false)).length

/-- Count of per-command before-events (one per invocation of a per-command
link). -/
def countC (l : List Ev) : Nat :=
  (l.filter (fun e => match e with | .cBefore _ => true | _ => false)).length

/-- The events a successfully processed action contributes: its validation,
then its per-command chain pass around its handler. -/
def goodLog (cids : List Nat) (a : CmdSpec) : List Ev :=
  [.validated a.id] ++ cids.map Ev.cBefore ++ [.handled a.id] ++ (cids.reverse).map Ev.cAfter

/-- The events one fan-out branch contributes: its per-command chain pass
around its query handler. -/
def branchLog (cids : List Nat) (q : CmdSpec) : List Ev :=
  cids.map Ev.cBefore ++ [.handled q.id] ++ (cids.reverse).map Ev.cAfter

/-! ## Proofs -/

theorem MState.eta_state (st : MState) : (⟨st.cursorIdx, st.log⟩ : MState) = st := rfl

/-- C2: registering three distinct handlers for "CreateUser", "CreateUser2"
and "CreateAccount" in that order, lookup on each key yields that key's own
handler — the split/demote steps preserve every previously attached
handler — and the unregistered shared-prefix key "CreateU" is not found. -/
theorem trie_splitting_example :
    (buildTrie [(ACTION, "CreateUser".toList, 1), (ACTION, "CreateUser2".toList, 2),
        (ACTION, "CreateAccount".toList, 3)]).map (fun t =>
      ((t.findRoute ACTION "CreateUser".toList).map Node.entry,
       (t.findRoute ACTION "CreateUser2".toList).map Node.entry,
       (t.findRoute ACTION "CreateAccount".toList).map Node.entry,
       (t.findRoute ACTION "CreateU".toList).map Node.entry))
    = .ok (some (some (ACTION, 1)), some (some (ACTION, 2)),
           some (some (ACTION, 3)), none) := rfl

/-- C3 counterexample: registering the same TypeKey under the *other*
operation-kind is a conflict in the code — `handlerEntry.insert` panics
whenever a handler is already present, whatever its kind — so the second
insert fails although no handler for (QUERY, "CreateUser") exists. -/
theorem insert_other_kind_fails_ctrex :
    (emptyNode.insert ACTION "CreateUser".toList 1).bind
      (fun t => t.insert QUERY "CreateUser".toList 2) = .error .duplicateHandler := rfl

/-- Behaviour of the cursor-based chain over recording links, from an
arbitrary cursor position `k`: the links from `k` on run their before halves
in order, the terminal runs once with the cursor exhausted, and the after
halves run in reverse order. -/
theorem execF_recD (ids : List Nat) (t : Mid) :
    ∀ fuel k st, st.cursorIdx = k → k ≤ ids.length → ids.length - k < fuel →
      execF fuel (ids.map recD) t st =
        ((⟨(t ⟨ids.length, st.log ++ (ids.drop k).map Ev.dBefore⟩).1.cursorIdx,
           (t ⟨ids.length, st.log ++ (ids.drop k).map Ev.dBefore⟩).1.log
             ++ ((ids.drop k).reverse).map Ev.dAfter⟩ : MState),
         (t ⟨ids.length, st.log ++ (ids.drop k).map Ev.dBefore⟩).2) := by
  intro fuel
  induction fuel with
  | zero => intro k st _ _ h; omega
  | succ fuel ih =>
    intro k st hk hle hfuel
    by_cases hkl : k < ids.length
    · have hcur : st.cursorIdx < (ids.map recD).length := by
        simpa [List.length_map, hk] using hkl
      rw [execF, dif_pos hcur]
      have hget : (ids.map recD).get ⟨st.cursorIdx, hcur⟩ = recD (ids.get ⟨k, hkl⟩) := by
        simp [List.get_eq_getElem, hk]
      rw [hget]
      show (let r := execF fuel (ids.map recD) t
              ⟨st.cursorIdx + 1, st.log ++ [Ev.dBefore (ids.get ⟨k, hkl⟩)]⟩
            ({ r.1 with log := r.1.log ++ [Ev.dAfter (ids.get ⟨k, hkl⟩)] }, r.2)) = _
      have hi := ih (k + 1) ⟨st.cursorIdx + 1, st.log ++ [Ev.dBefore (ids.get ⟨k, hkl⟩)]⟩
        (by simp [hk]) (by omega) (by omega)
      rw [hi]
      have hdrop : ids.drop k = ids.get ⟨k, hkl⟩ :: ids.drop (k + 1) :=
        (List.getElem_cons_drop _ _ hkl).symm
      have h1 : (ids.drop k).map Ev.dBefore
          = Ev.dBefore (ids.get ⟨k, hkl⟩) :: (ids.drop (k + 1)).map Ev.dBefore := by
        rw [hdrop]; rfl
      have h2 : ((ids.drop k).reverse).map Ev.dAfter
          = ((ids.drop (k + 1)).reverse).map Ev.dAfter ++ [Ev.dAfter (ids.get ⟨k, hkl⟩)] := by
        rw [hdrop, List.reverse_cons, List.map_append]
        rfl
      rw [h1, h2]
      simp only [List.append_assoc, List.singleton_append]
    · have hkeq : k = ids.length := by omega
      have hcur : ¬ st.cursorIdx < (ids.map recD).length := by
        simp [List.length_map, hk, hkeq]
      rw [execF, dif_neg hcur]
      subst hkeq
      rw [show (⟨ids.length, st.log ++ (ids.drop ids.length).map Ev.dBefore⟩ : MState) = st by
        rw [List.drop_length]; simp [← hk]]
      simp [List.drop_length]

/-- `exec` over recording per-call links, from cursor position `k`. -/
theorem exec_recD (ids : List Nat) (t : Mid) (k : Nat) (st : MState)
    (hk : st.cursorIdx = k) (hle : k ≤ ids.length) :
    exec (ids.map recD) t st =
      ((⟨(t ⟨ids.length, st.log ++ (ids.drop k).map Ev.dBefore⟩).1.cursorIdx,
         (t ⟨ids.length, st.log ++ (ids.drop k).map Ev.dBefore⟩).1.log
           ++ ((ids.drop k).reverse).map Ev.dAfter⟩ : MState),
       (t ⟨ids.length, st.log ++ (ids.drop k).map Ev.dBefore⟩).2) := by
  rw [exec]
  by_cases hne : (ids.map recD).isEmpty
  · have hids : ids = [] := by
      cases ids with
      | nil => rfl
      | cons a l => simp [List.isEmpty] at hne
    subst hids
    have hk0 : k = 0 := Nat.le_zero.mp hle
    subst hk0
    rw [if_pos hne]
    rw [show (⟨([] : List Nat).length, st.log ++ (([] : List Nat).drop 0).map Ev.dBefore⟩
        : MState) = st by simp [← hk]]
    simp
  · rw [if_neg hne]
    exact execF_recD ids t _ k st hk hle (by simp [List.length_map]; omega)

/-- The per-command chain over recording links whose bitmask intersects the
requested kind: all before halves in order, the terminal once, all after
halves in reverse; the cursor is untouched by the links. -/
theorem chain_recC (m op : OpType) (hm : m &&& op ≠ 0) :
    ∀ (ids : List Nat) (t : Mid) (st : MState), chain op (ids.map (recC m)) t st =
      ((⟨(t ⟨st.cursorIdx, st.log ++ ids.map Ev.cBefore⟩).1.cursorIdx,
         (t ⟨st.cursorIdx, st.log ++ ids.map Ev.cBefore⟩).1.log
           ++ (ids.reverse).map Ev.cAfter⟩ : MState),
       (t ⟨st.cursorIdx, st.log ++ ids.map Ev.cBefore⟩).2) := by
  intro ids
  induction ids with
  | nil =>
    intro t st
    show t st = _
    rw [show (⟨st.cursorIdx, st.log ++ ([] : List Nat).map Ev.cBefore⟩ : MState) = st by simp]
    simp
  | cons i rest ih =>
    intro t st
    have hstep : filterMiddleware op (recC m i :: rest.map (recC m))
        = recC m i :: filterMiddleware op (rest.map (recC m)) := by
      simp only [filterMiddleware]
      rw [List.filter_cons_of_pos]
      simpa [recC] using hm
    rw [chain, List.map_cons, hstep, List.foldr_cons]
    have hrest : List.foldr (fun mw h => mw.fn h) t (filterMiddleware op (rest.map (recC m)))
        = chain op (rest.map (recC m)) t := rfl
    rw [hrest]
    show (let r := chain op (rest.map (recC m)) t { st with log := st.log ++ [Ev.cBefore i] }
          ({ r.1 with log := r.1.log ++ [Ev.cAfter i] }, r.2)) = _
    rw [ih t { st with log := st.log ++ [Ev.cBefore i] }]
    simp [List.append_assoc]

/-- C4: middleware composition is onion-ordered for both chain shapes: for
every list of recording middlewares `[m1, ..., mn]` and recording terminal,
the eagerly wrapped per-command chain and the cursor-based per-call chain
both produce the sequence m1-before, ..., mn-before, terminal, mn-after,
..., m1-after. -/
theorem middleware_onion_order (ids : List Nat) (m op : OpType) (hm : m &&& op ≠ 0)
    (evs : List Ev) (err : Option GoErr) (st : MState) (hc : st.cursorIdx = 0) :
    chain op (ids.map (recC m)) (termMid evs err) st =
      ({ st with log := st.log ++ (ids.map Ev.cBefore ++ evs ++ (ids.reverse).map Ev.cAfter) }, err)
    ∧ exec (ids.map recD) (termMid evs err) st =
      (⟨ids.length, st.log ++ (ids.map Ev.dBefore ++ evs ++ (ids.reverse).map Ev.dAfter)⟩, err) := by
  constructor
  · rw [chain_recC m op hm ids (termMid evs err) st]
    simp [termMid, List.append_assoc]
  · rw [exec_recD ids (termMid evs err) 0 st hc (Nat.zero_le _)]
    simp [termMid, List.append_assoc]

/-- Witness for C4 at the claim's `[A, B]` around `H` shape. -/
theorem middleware_onion_order_witness :
    ((ALL &&& ACTION ≠ 0) ∧ (⟨0, []⟩ : MState).cursorIdx = 0)
    ∧ chain ACTION ([1, 2].map (recC ALL)) (termMid [.term 0] none) ⟨0, []⟩ =
      (⟨0, [.cBefore 1, .cBefore 2, .term 0, .cAfter 2, .cAfter 1]⟩, none)
    ∧ exec ([1, 2].map recD) (termMid [.term 0] none) ⟨0, []⟩ =
      (⟨2, [.dBefore 1, .dBefore 2, .term 0, .dAfter 2, .dAfter 1]⟩, none) := by
  have h := middleware_onion_order [1, 2] ALL ACTION (by decide) [.term 0] none ⟨0, []⟩ rfl
  exact ⟨⟨by decide, rfl⟩, by simpa using h.1, by simpa using h.2⟩

/-- Creating a child never aliases the parent: folding parent registrations
leaves the pair's child component untouched. -/
theorem foldl_parentUse_child (us : List UseOp) :
    ∀ w : ScopePair, (us.foldl parentUse w).child = w.child := by
  induction us with
  | nil => intro w; rfl
  | cons u rest ih => intro w; rw [List.foldl_cons]; exact ih _

/-- C6: `Group` snapshots the parent's three middleware lists by value: any
sequence of Use/UseDispatch/UseQuery calls performed on the parent after the
child was created leaves the child's lists — and hence every chain the child
builds — exactly as they were at creation time. -/
theorem group_snapshot_isolation (p : MuxM) (us : List UseOp) :
    (us.foldl parentUse (mkChildPair p)).child = p.child
    ∧ (∀ op cmd, chain op ((us.foldl parentUse (mkChildPair p)).child.cmdMws) cmd
        = chain op p.child.cmdMws cmd)
    ∧ (∀ cmd, exec ((us.foldl parentUse (mkChildPair p)).child.dispatchMws) cmd
        = exec p.child.dispatchMws cmd)
    ∧ (∀ cmd, exec ((us.foldl parentUse (mkChildPair p)).child.queryMws) cmd
        = exec p.child.queryMws cmd) := by
  have h : (us.foldl parentUse (mkChildPair p)).child = p.child :=
    foldl_parentUse_child us (mkChildPair p)
  exact ⟨h, fun op cmd => by rw [h], fun cmd => by rw [h], fun cmd => by rw [h]⟩

/-- C10: the empty batch returns nil at once for every caller context — bus
or no bus — leaving the pool untouched; a nonempty batch without a bus in
the context returns the "bus not found in context" error (not a panic),
again before touching the pool. -/
theorem empty_batch_and_missing_bus (dmws cmws qmws : List MwLink) (octx : OuterCtx)
    (acts : List CmdSpec) (pool : Nat) (log0 : List Ev) :
    DispatchMultiM dmws cmws octx [] pool log0 = (pool, log0, none)
    ∧ QueryAsyncM qmws cmws octx [] pool log0 = (pool, log0, none)
    ∧ (acts ≠ [] → octx.hasBus = false →
        DispatchMultiM dmws cmws octx acts pool log0 = (pool, log0, some .busNotFound)
        ∧ QueryAsyncM qmws cmws octx acts pool log0 = (pool, log0, some .busNotFound)) := by
  refine ⟨rfl, rfl, fun hne hbus => ?_⟩
  have hempty : acts.isEmpty = false := by
    cases acts with
    | nil => exact absurd rfl hne
    | cons a l => rfl
  constructor
  · rw [DispatchMultiM, hempty, hbus]
    rfl
  · rw [QueryAsyncM, hempty, hbus]
    rfl

theorem GoErr.is_refl (e : GoErr) : e.is e = true := by
  cases e <;> simp [GoErr.is]

theorem resolveAll_none : ∀ l : List CmdSpec, (∀ a ∈ l, a.resolveErr = none) →
    resolveAll l = none := by
  intro l
  induction l with
  | nil => intro _; rfl
  | cons a rest ih =>
    intro h
    have ha := h a (List.mem_cons_self a rest)
    rw [resolveAll, ha]
    exact ih (fun b hb => h b (List.mem_cons_of_mem a hb))

/-- The batch closure on all-good actions: every action is validated and then
routed through the per-command chain, in submission order. -/
theorem runBatch_good (cids : List Nat) (m : OpType) (hm : m &&& ACTION ≠ 0) :
    ∀ (actions : List CmdSpec) (st : MState),
      (∀ a ∈ actions, a.valErr = none ∧ a.hErr = none) →
      runBatch (cids.map (recC m)) actions st =
        ({ st with log := st.log ++ (actions.map (goodLog cids)).flatten }, none) := by
  intro actions
  induction actions with
  | nil =>
    intro st _
    show (st, none) = _
    simp
  | cons a rest ih =>
    intro st h
    have ha := h a (List.mem_cons_self a rest)
    rw [runBatch, ha.1]
    rw [chain_recC m ACTION hm cids (cmdHandler a) { st with log := st.log ++ [.validated a.id] }]
    show (match ((⟨_, _⟩ : MState), a.hErr) with
          | (st2, some e) => (st2, some e)
          | (st2, none) => runBatch (cids.map (recC m)) rest st2) = _
    rw [ha.2]
    show runBatch (cids.map (recC m)) rest _ = _
    rw [ih _ (fun b hb => h b (List.mem_cons_of_mem a hb))]
    simp [cmdHandler, goodLog, List.append_assoc]

/-- The batch closure when the action after a good prefix fails validation:
the good prefix is processed, the failing action is validated and nothing
more happens — in particular no later action is validated or handled. -/
theorem runBatch_fail (cids : List Nat) (m : OpType) (hm : m &&& ACTION ≠ 0)
    (ai : CmdSpec) (e : GoErr) (hv : ai.valErr = some e) :
    ∀ (pre : List CmdSpec) (st : MState),
      (∀ a ∈ pre, a.valErr = none ∧ a.hErr = none) → ∀ post,
      runBatch (cids.map (recC m)) (pre ++ ai :: post) st =
        ({ st with log := st.log ++ ((pre.map (goodLog cids)).flatten ++ [.validated ai.id]) },
         some (.wrapVF e)) := by
  intro pre
  induction pre with
  | nil =>
    intro st _ post
    rw [List.nil_append, runBatch, hv]
    simp
  | cons a rest ih =>
    intro st h post
    have ha := h a (List.mem_cons_self a rest)
    rw [List.cons_append, runBatch, ha.1]
    rw [chain_recC m ACTION hm cids (cmdHandler a) { st with log := st.log ++ [.validated a.id] }]
    show (match ((⟨_, _⟩ : MState), a.hErr) with
          | (st2, some e) => (st2, some e)
          | (st2, none) => runBatch (cids.map (recC m)) (rest ++ ai :: post) st2) = _
    rw [ha.2]
    show runBatch (cids.map (recC m)) (rest ++ ai :: post) _ = _
    rw [ih _ (fun b hb => h b (List.mem_cons_of_mem a hb)) post]
    simp [cmdHandler, goodLog, List.append_assoc]

theorem countD_append (a b : List Ev) : countD (a ++ b) = countD a + countD b := by
  simp [countD, List.filter_append]

theorem countC_append (a b : List Ev) : countC (a ++ b) = countC a + countC b := by
  simp [countC, List.filter_append]

theorem countD_map_dBefore : ∀ ids : List Nat, countD (ids.map Ev.dBefore) = ids.length := by
  intro ids
  induction ids with
  | nil => rfl
  | cons i rest ih => simp [countD, List.filter_cons] at ih ⊢; omega

theorem countD_map_dAfter : ∀ ids : List Nat, countD (ids.map Ev.dAfter) = 0 := by
  intro ids
  induction ids with
  | nil => rfl
  | cons i rest ih => simpa [countD, List.filter_cons] using ih

theorem countD_map_cBefore : ∀ ids : List Nat, countD (ids.map Ev.cBefore) = 0 := by
  intro ids
  induction ids with
  | nil => rfl
  | cons i rest ih => simpa [countD, List.filter_cons] using ih

theorem countD_map_cAfter : ∀ ids : List Nat, countD (ids.map Ev.cAfter) = 0 := by
  intro ids
  induction ids with
  | nil => rfl
  | cons i rest ih => simpa [countD, List.filter_cons] using ih

theorem countC_map_cBefore : ∀ ids : List Nat, countC (ids.map Ev.cBefore) = ids.length := by
  intro ids
  induction ids with
  | nil => rfl
  | cons i rest ih => simp [countC, List.filter_cons] at ih ⊢; omega

theorem countC_map_cAfter : ∀ ids : List Nat, countC (ids.map Ev.cAfter) = 0 := by
  intro ids
  induction ids with
  | nil => rfl
  | cons i rest ih => simpa [countC, List.filter_cons] using ih

theorem countC_map_dBefore : ∀ ids : List Nat, countC (ids.map Ev.dBefore) = 0 := by
  intro ids
  induction ids with
  | nil => rfl
  | cons i rest ih => simpa [countC, List.filter_cons] using ih

theorem countC_map_dAfter : ∀ ids : List Nat, countC (ids.map Ev.dAfter) = 0 := by
  intro ids
  induction ids with
  | nil => rfl
  | cons i rest ih => simpa [countC, List.filter_cons] using ih

theorem countD_validated (i : Nat) : countD [Ev.validated i] = 0 := rfl

theorem countD_handled (i : Nat) : countD [Ev.handled i] = 0 := rfl

theorem countC_validated (i : Nat) : countC [Ev.validated i] = 0 := rfl

theorem countC_handled (i : Nat) : countC [Ev.handled i] = 0 := rfl

theorem countD_goodLog (cids : List Nat) (a : CmdSpec) : countD (goodLog cids a) = 0 := by
  rw [goodLog, countD_append, countD_append, countD_append,
    countD_map_cBefore cids, countD_map_cAfter cids.reverse,
    countD_validated, countD_handled]

theorem countC_goodLog (cids : List Nat) (a : CmdSpec) : countC (goodLog cids a) = cids.length := by
  rw [goodLog, countC_append, countC_append, countC_append,
    countC_map_cBefore cids, countC_map_cAfter cids.reverse,
    countC_validated, countC_handled]
  omega

theorem countD_flatten_goodLog (cids : List Nat) :
    ∀ actions : List CmdSpec, countD ((actions.map (goodLog cids)).flatten) = 0 := by
  intro actions
  induction actions with
  | nil => rfl
  | cons a rest ih =>
    rw [List.map_cons, List.flatten_cons, countD_append, ih, countD_goodLog]

theorem countC_flatten_goodLog (cids : List Nat) :
    ∀ actions : List CmdSpec,
      countC ((actions.map (goodLog cids)).flatten) = cids.length * actions.length := by
  intro actions
  induction actions with
  | nil => rfl
  | cons a rest ih =>
    rw [List.map_cons, List.flatten_cons, countC_append, ih, countC_goodLog,
      List.length_cons]
    ring

/-- C5: in one `DispatchMulti` call over a batch of actions, each per-call
(dispatch-scope) middleware link runs exactly once for the whole call, while
each per-command link whose bitmask intersects ACTION runs once per action:
counting link invocations over recording middlewares, the per-call count is
the number of per-call links and the per-command count is the number of
per-command links times the batch size. -/
theorem perCall_once_perCommand_each (dids cids : List Nat) (m : OpType)
    (hm : m &&& ACTION ≠ 0) (actions : List CmdSpec) (octx : OuterCtx)
    (pool : Nat) (log0 : List Ev) (hbus : octx.hasBus = true) (hne : actions ≠ [])
    (hgood : ∀ a ∈ actions, a.resolveErr = none ∧ a.valErr = none ∧ a.hErr = none) :
    (DispatchMultiM (dids.map recD) (cids.map (recC m)) octx actions pool log0).2.2 = none
    ∧ countD (DispatchMultiM (dids.map recD) (cids.map (recC m)) octx actions pool log0).2.1
        = countD log0 + dids.length
    ∧ countC (DispatchMultiM (dids.map recD) (cids.map (recC m)) octx actions pool log0).2.1
        = countC log0 + cids.length * actions.length := by
  have hempty : actions.isEmpty = false := by
    cases actions with
    | nil => exact absurd rfl hne
    | cons a l => rfl
  have hresn : resolveAll actions = none := resolveAll_none _ (fun a ha => (hgood a ha).1)
  have hexec := exec_recD dids (runBatch (cids.map (recC m)) actions) 0 ⟨0, log0⟩ rfl
    (Nat.zero_le _)
  simp only [DispatchMultiM, hempty, hbus, hresn, Bool.not_true, Bool.false_eq_true,
    if_false]
  rw [hexec]
  simp only [List.drop_zero]
  rw [runBatch_good cids m hm actions ⟨dids.length, log0 ++ dids.map Ev.dBefore⟩
    (fun a ha => ⟨(hgood a ha).2.1, (hgood a ha).2.2⟩)]
  refine ⟨rfl, ?_, ?_⟩
  · show countD ((log0 ++ dids.map Ev.dBefore)
        ++ (actions.map (goodLog cids)).flatten ++ (dids.reverse).map Ev.dAfter)
      = countD log0 + dids.length
    rw [countD_append, countD_append, countD_append, countD_map_dBefore,
      countD_flatten_goodLog, countD_map_dAfter]
    omega
  · show countC ((log0 ++ dids.map Ev.dBefore)
        ++ (actions.map (goodLog cids)).flatten ++ (dids.reverse).map Ev.dAfter)
      = countC log0 + cids.length * actions.length
    rw [countC_append, countC_append, countC_append, countC_map_dBefore,
      countC_flatten_goodLog, countC_map_dAfter]
    omega

/-- Witness for C5: a batch of two good actions through one per-call and one
per-command recording link: the per-call counter reads 1, the per-command
counter reads 2. -/
theorem perCall_once_perCommand_each_witness :
    ((ALL &&& ACTION ≠ 0) ∧ (⟨true⟩ : OuterCtx).hasBus = true
      ∧ ([⟨1, none, none, none⟩, ⟨2, none, none, none⟩] : List CmdSpec) ≠ []
      ∧ (∀ a ∈ ([⟨1, none, none, none⟩, ⟨2, none, none, none⟩] : List CmdSpec),
          a.resolveErr = none ∧ a.valErr = none ∧ a.hErr = none))
    ∧ (DispatchMultiM ([7].map recD) ([8].map (recC ALL)) ⟨true⟩
        [⟨1, none, none, none⟩, ⟨2, none, none, none⟩] 1 []).2.2 = none
    ∧ countD (DispatchMultiM ([7].map recD) ([8].map (recC ALL)) ⟨true⟩
        [⟨1, none, none, none⟩, ⟨2, none, none, none⟩] 1 []).2.1 = countD [] + 1
    ∧ countC (DispatchMultiM ([7].map recD) ([8].map (recC ALL)) ⟨true⟩
        [⟨1, none, none, none⟩, ⟨2, none, none, none⟩] 1 []).2.1 = countC [] + 1 * 2 := by
  have h := perCall_once_perCommand_each [7] [8] ALL (by decide)
    [⟨1, none, none, none⟩, ⟨2, none, none, none⟩] ⟨true⟩ 1 [] rfl (by simp)
    (by intro a ha; fin_cases ha <;> exact ⟨rfl, rfl, rfl⟩)
  exact ⟨⟨by decide, rfl, by simp, by intro a ha; fin_cases ha <;> exact ⟨rfl, rfl, rfl⟩⟩,
    h.1, by simpa using h.2.1, by simpa using h.2.2⟩

/-- C7: when the i-th action of a batch fails validation (and everything
before it succeeded), `DispatchMulti` returns exactly the wrapped validation
error — which `errors.Is`-matches `ErrValidationFailed` and unwraps to the
original error — no action after the i-th is validated or handled (the final
log carries events of the prefix and the failing validation only), and the
pooled context is still released (`Get` then deferred `Put`). -/
theorem dispatch_validation_failure (dids cids : List Nat) (m : OpType)
    (hm : m &&& ACTION ≠ 0) (pre post : List CmdSpec) (ai : CmdSpec) (e : GoErr)
    (octx : OuterCtx) (pool : Nat) (log0 : List Ev) (hbus : octx.hasBus = true)
    (hpre : ∀ a ∈ pre, a.resolveErr = none ∧ a.valErr = none ∧ a.hErr = none)
    (hpost : ∀ a ∈ post, a.resolveErr = none)
    (hair : ai.resolveErr = none) (haiv : ai.valErr = some e) :
    (DispatchMultiM (dids.map recD) (cids.map (recC m)) octx (pre ++ ai :: post) pool log0).2.2
      = some (.wrapVF e)
    ∧ GoErr.is (.wrapVF e) .errValidationFailed = true
    ∧ GoErr.is (.wrapVF e) e = true
    ∧ (DispatchMultiM (dids.map recD) (cids.map (recC m)) octx (pre ++ ai :: post) pool log0).2.1
      = log0 ++ dids.map Ev.dBefore ++ (pre.map (goodLog cids)).flatten
          ++ [.validated ai.id] ++ (dids.reverse).map Ev.dAfter
    ∧ (DispatchMultiM (dids.map recD) (cids.map (recC m)) octx (pre ++ ai :: post) pool log0).1
      = pool - 1 + 1 := by
  have hempty : (pre ++ ai :: post).isEmpty = false := by
    cases pre with
    | nil => rfl
    | cons a l => rfl
  have hresn : resolveAll (pre ++ ai :: post) = none := by
    apply resolveAll_none
    intro a ha
    rcases List.mem_append.mp ha with h1 | h2
    · exact (hpre a h1).1
    · rcases List.mem_cons.mp h2 with rfl | h3
      · exact hair
      · exact hpost a h3
  have hexec := exec_recD dids (runBatch (cids.map (recC m)) (pre ++ ai :: post)) 0
    ⟨0, log0⟩ rfl (Nat.zero_le _)
  simp only [DispatchMultiM, hempty, hbus, hresn, Bool.not_true, Bool.false_eq_true,
    if_false]
  rw [hexec]
  simp only [List.drop_zero]
  rw [runBatch_fail cids m hm ai e haiv pre ⟨dids.length, log0 ++ dids.map Ev.dBefore⟩
    (fun a ha => ⟨(hpre a ha).2.1, (hpre a ha).2.2⟩) post]
  refine ⟨rfl, ?_, ?_, ?_, trivial⟩
  · simp [GoErr.is]
  · simp [GoErr.is, GoErr.is_refl]
  · show (log0 ++ dids.map Ev.dBefore)
        ++ ((pre.map (goodLog cids)).flatten ++ [.validated ai.id])
        ++ (dids.reverse).map Ev.dAfter = _
    simp [List.append_assoc]

/-- Witness for C7: a batch of two actions whose second fails validation. -/
theorem dispatch_validation_failure_witness :
    ((ALL &&& ACTION ≠ 0) ∧ (⟨true⟩ : OuterCtx).hasBus = true
      ∧ (∀ a ∈ ([⟨1, none, none, none⟩] : List CmdSpec),
          a.resolveErr = none ∧ a.valErr = none ∧ a.hErr = none)
      ∧ (∀ a ∈ ([] : List CmdSpec), a.resolveErr = none)
      ∧ (⟨2, none, some (.sentinel 9), none⟩ : CmdSpec).resolveErr = none
      ∧ (⟨2, none, some (.sentinel 9), none⟩ : CmdSpec).valErr = some (.sentinel 9))
    ∧ (DispatchMultiM ([7].map recD) ([8].map (recC ALL)) ⟨true⟩
        ([⟨1, none, none, none⟩] ++ ⟨2, none, some (.sentinel 9), none⟩ :: []) 1 []).2.2
      = some (.wrapVF (.sentinel 9))
    ∧ GoErr.is (.wrapVF (.sentinel 9)) .errValidationFailed = true
    ∧ GoErr.is (.wrapVF (.sentinel 9)) (.sentinel 9) = true
    ∧ (DispatchMultiM ([7].map recD) ([8].map (recC ALL)) ⟨true⟩
        ([⟨1, none, none, none⟩] ++ ⟨2, none, some (.sentinel 9), none⟩ :: []) 1 []).2.1
      = [] ++ [7].map Ev.dBefore ++ (([⟨1, none, none, none⟩] : List CmdSpec).map
          (goodLog [8])).flatten ++ [.validated 2] ++ ([7].reverse).map Ev.dAfter
    ∧ (DispatchMultiM ([7].map recD) ([8].map (recC ALL)) ⟨true⟩
        ([⟨1, none, none, none⟩] ++ ⟨2, none, some (.sentinel 9), none⟩ :: []) 1 []).1
      = 1 - 1 + 1 := by
  have h := dispatch_validation_failure [7] [8] ALL (by decide)
    [⟨1, none, none, none⟩] [] ⟨2, none, some (.sentinel 9), none⟩ (.sentinel 9)
    ⟨true⟩ 1 [] rfl (by intro a ha; fin_cases ha <;> exact ⟨rfl, rfl, rfl⟩)
    (by intro a ha; cases ha) rfl rfl
  refine ⟨⟨by decide, rfl, ?_, ?_, rfl, rfl⟩, h.1, h.2.1, h.2.2.1, h.2.2.2.1, h.2.2.2.2⟩
  · intro a ha
    fin_cases ha <;> exact ⟨rfl, rfl, rfl⟩
  · intro a ha
    cases ha

/-- One fan-out branch over recording middlewares, entered with the outer
(already exhausted) cursor: the branch's own per-call re-entry goes straight
to the per-command chain around its handler. -/
theorem runBranch_eval (qids cids : List Nat) (m : OpType) (hm : m &&& QUERY ≠ 0)
    (q : CmdSpec) :
    runBranch (qids.map recD) (cids.map (recC m)) qids.length q
      = ((⟨qids.length, branchLog cids q⟩ : MState), q.hErr) := by
  rw [runBranch]
  rw [exec_recD qids (chain QUERY (cids.map (recC m)) (cmdHandler q)) qids.length
    ⟨qids.length, []⟩ rfl (Nat.le_refl _)]
  rw [List.drop_length]
  rw [chain_recC m QUERY hm cids (cmdHandler q) ⟨qids.length, [] ++ ([] : List Nat).map Ev.dBefore⟩]
  simp [cmdHandler, branchLog, List.append_assoc]

/-- The fan-out closure at the exhausted outer cursor: every branch runs
(independently, whatever the other branches return), their events are all
present, and the collected errors are joined. -/
theorem fanOut_eval (qids cids : List Nat) (m : OpType) (hm : m &&& QUERY ≠ 0)
    (queries : List CmdSpec) (st : MState) (hc : st.cursorIdx = qids.length) :
    fanOut (qids.map recD) (cids.map (recC m)) queries st =
      ({ st with log := st.log ++ (queries.map (branchLog cids)).flatten },
       joinErrs (queries.filterMap (fun q => q.hErr))) := by
  rw [fanOut, hc]
  have hmap : queries.map (runBranch (qids.map recD) (cids.map (recC m)) qids.length)
      = queries.map (fun q => ((⟨qids.length, branchLog cids q⟩ : MState), q.hErr)) :=
    List.map_congr_left (fun q _ => runBranch_eval qids cids m hm q)
  rw [hmap]
  have h1 : ((queries.map (fun q => ((⟨qids.length, branchLog cids q⟩ : MState), q.hErr))).map
      (fun r => r.1.log)) = queries.map (branchLog cids) := by
    rw [List.map_map]
    rfl
  have h2 : ((queries.map (fun q => ((⟨qids.length, branchLog cids q⟩ : MState), q.hErr))).filterMap
      (fun r => r.2)) = queries.filterMap (fun q => q.hErr) := by
    rw [List.filterMap_map]
    rfl
  rw [h1, h2]

theorem foldl_joined_is (e : GoErr) : ∀ (rest : List GoErr) (acc : GoErr),
    (acc.is e = true ∨ e ∈ rest) →
    (rest.foldl (fun a x => GoErr.joined a x) acc).is e = true := by
  intro rest
  induction rest with
  | nil =>
    intro acc h
    rcases h with h | h
    · exact h
    · cases h
  | cons x rest ih =>
    intro acc h
    rw [List.foldl_cons]
    apply ih
    rcases h with h | h
    · left; simp [GoErr.is, h]
    · rcases List.mem_cons.mp h with rfl | h2
      · left; simp [GoErr.is, GoErr.is_refl]
      · right; exact h2

/-- A member of the collected error list is `errors.Is`-recoverable from the
`errors.Join` accumulation. -/
theorem joinErrs_is (errs : List GoErr) (e : GoErr) (he : e ∈ errs) :
    ∃ c, joinErrs errs = some c ∧ c.is e = true := by
  cases errs with
  | nil => cases he
  | cons x rest =>
    refine ⟨_, rfl, ?_⟩
    apply foldl_joined_is
    rcases List.mem_cons.mp he with rfl | h
    · left; exact GoErr.is_refl e
    · right; exact h

/-- C8: in a `QueryAsync` call, every branch runs to completion regardless of
other branches' failures (each branch's handler invocation is in the final
log), every branch error is individually `errors.Is`-recoverable from the
returned combined error, and when no branch fails the call returns nil. -/
theorem queryAsync_error_aggregation (qids cids : List Nat) (m : OpType)
    (hm : m &&& QUERY ≠ 0) (queries : List CmdSpec) (octx : OuterCtx)
    (pool : Nat) (log0 : List Ev) (hbus : octx.hasBus = true) (hne : queries ≠ [])
    (hres : ∀ q ∈ queries, q.resolveErr = none) :
    (∀ q ∈ queries, Ev.handled q.id ∈
      (QueryAsyncM (qids.map recD) (cids.map (recC m)) octx queries pool log0).2.1)
    ∧ (∀ q ∈ queries, ∀ e, q.hErr = some e →
        ∃ c, (QueryAsyncM (qids.map recD) (cids.map (recC m)) octx queries pool log0).2.2
          = some c ∧ c.is e = true)
    ∧ ((∀ q ∈ queries, q.hErr = none) →
        (QueryAsyncM (qids.map recD) (cids.map (recC m)) octx queries pool log0).2.2
          = none) := by
  have hempty : queries.isEmpty = false := by
    cases queries with
    | nil => exact absurd rfl hne
    | cons a l => rfl
  have hresn : resolveAll queries = none := resolveAll_none _ hres
  have hexec := exec_recD qids (fanOut (qids.map recD) (cids.map (recC m)) queries) 0
    ⟨0, log0⟩ rfl (Nat.zero_le _)
  simp only [QueryAsyncM, hempty, hbus, hresn, Bool.not_true, Bool.false_eq_true,
    if_false]
  rw [hexec]
  simp only [List.drop_zero]
  rw [fanOut_eval qids cids m hm queries ⟨qids.length, log0 ++ qids.map Ev.dBefore⟩ rfl]
  refine ⟨?_, ?_, ?_⟩
  · intro q hq
    show Ev.handled q.id ∈ (log0 ++ qids.map Ev.dBefore)
        ++ (queries.map (branchLog cids)).flatten ++ (qids.reverse).map Ev.dAfter
    have hb : Ev.handled q.id ∈ branchLog cids q := by
      simp [branchLog]
    have hfl : Ev.handled q.id ∈ (queries.map (branchLog cids)).flatten :=
      List.mem_flatten.mpr ⟨branchLog cids q, List.mem_map_of_mem _ hq, hb⟩
    exact List.mem_append.mpr (Or.inl (List.mem_append.mpr (Or.inr hfl)))
  · intro q hq e he
    apply joinErrs_is
    exact List.mem_filterMap.mpr ⟨q, hq, by rw [he]⟩
  · intro hall
    have : queries.filterMap (fun q => q.hErr) = [] := by
      apply List.filterMap_eq_nil_iff.mpr
      intro q hq
      rw [hall q hq]
    rw [this]
    rfl

/-- Witness for C8: two queries failing with distinct errors — both are
recoverable from the joined error; plus the nil case. -/
theorem queryAsync_error_aggregation_witness :
    ((ALL &&& QUERY ≠ 0) ∧ (⟨true⟩ : OuterCtx).hasBus = true
      ∧ ([⟨1, none, none, some (.sentinel 4)⟩, ⟨2, none, none, some (.sentinel 5)⟩]
          : List CmdSpec) ≠ []
      ∧ (∀ q ∈ ([⟨1, none, none, some (.sentinel 4)⟩, ⟨2, none, none, some (.sentinel 5)⟩]
          : List CmdSpec), q.resolveErr = none))
    ∧ (∀ q ∈ ([⟨1, none, none, some (.sentinel 4)⟩, ⟨2, none, none, some (.sentinel 5)⟩]
        : List CmdSpec), Ev.handled q.id ∈
        (QueryAsyncM ([7].map recD) ([8].map (recC ALL)) ⟨true⟩
          [⟨1, none, none, some (.sentinel 4)⟩, ⟨2, none, none, some (.sentinel 5)⟩]
          1 []).2.1)
    ∧ (∀ q ∈ ([⟨1, none, none, some (.sentinel 4)⟩, ⟨2, none, none, some (.sentinel 5)⟩]
        : List CmdSpec), ∀ e, q.hErr = some e →
        ∃ c, (QueryAsyncM ([7].map recD) ([8].map (recC ALL)) ⟨true⟩
          [⟨1, none, none, some (.sentinel 4)⟩, ⟨2, none, none, some (.sentinel 5)⟩]
          1 []).2.2 = some c ∧ c.is e = true) := by
  have h := queryAsync_error_aggregation [7] [8] ALL (by decide)
    [⟨1, none, none, some (.sentinel 4)⟩, ⟨2, none, none, some (.sentinel 5)⟩]
    ⟨true⟩ 1 [] rfl (by simp) (by intro q hq; fin_cases hq <;> rfl)
  exact ⟨⟨by decide, rfl, by simp, by intro q hq; fin_cases hq <;> rfl⟩, h.1, h.2.1⟩

/-- Witness for C10 on a concrete busless context and a one-action batch. -/
theorem empty_batch_and_missing_bus_witness :
    (([⟨5, none, none, none⟩] : List CmdSpec) ≠ [] ∧ (⟨false⟩ : OuterCtx).hasBus = false)
    ∧ DispatchMultiM [] [] ⟨false⟩ [] 3 [] = (3, [], none)
    ∧ QueryAsyncM [] [] ⟨false⟩ [] 3 [] = (3, [], none)
    ∧ DispatchMultiM [] [] ⟨false⟩ [⟨5, none, none, none⟩] 3 [] = (3, [], some .busNotFound)
    ∧ QueryAsyncM [] [] ⟨false⟩ [⟨5, none, none, none⟩] 3 [] = (3, [], some .busNotFound) := by
  have h := empty_batch_and_missing_bus [] [] [] ⟨false⟩ [⟨5, none, none, none⟩] 3 []
  have h3 := h.2.2 (by simp) rfl
  exact ⟨⟨by simp, rfl⟩, h.1, h.2.1, h3.1, h3.2⟩

/-! ### Trie: basic lemmas -/

theorem Node.eta (n : Node) : Node.mk n.pre n.entry n.children n.label = n := by
  cases n
  rfl

theorem Inv.children_inv {n : Node} (h : Inv n) : ∀ c ∈ n.children, Inv c := by
  cases h with
  | mk p e ch l hch hsort hpre => exact hch

theorem Inv.sorted {n : Node} (h : Inv n) :
    n.children.Pairwise (fun a b => a.label < b.label) := by
  cases h with
  | mk p e ch l hch hsort hpre => exact hsort

theorem Inv.pre_facts {n : Node} (h : Inv n) :
    ∀ c ∈ n.children, c.pre ≠ [] ∧ c.pre.head? = some c.label := by
  cases h with
  | mk p e ch l hch hsort hpre => exact hpre

theorem Inv.intro_node {n : Node}
    (hch : ∀ c ∈ n.children, Inv c)
    (hsort : n.children.Pairwise (fun a b => a.label < b.label))
    (hpre : ∀ c ∈ n.children, c.pre ≠ [] ∧ c.pre.head? = some c.label) : Inv n := by
  rw [← Node.eta n]
  exact Inv.mk _ _ _ _ hch hsort hpre

theorem getEdgeL_eq_none {ns : List Node} {l : Char} :
    getEdgeL l ns = none ↔ ∀ c ∈ ns, c.label ≠ l := by
  induction ns with
  | nil => simp [getEdgeL]
  | cons d rest ih =>
    by_cases hd : d.label = l
    · simp [getEdgeL, hd]
    · simp [getEdgeL, hd, ih]

theorem getEdgeL_mem {ns : List Node} {l : Char} {c : Node}
    (h : getEdgeL l ns = some c) : c ∈ ns ∧ c.label = l := by
  induction ns with
  | nil => cases h
  | cons d rest ih =>
    by_cases hd : d.label = l
    · rw [getEdgeL, if_pos hd] at h
      cases h
      exact ⟨List.mem_cons_self _ _, hd⟩
    · rw [getEdgeL, if_neg hd] at h
      obtain ⟨h1, h2⟩ := ih h
      exact ⟨List.mem_cons_of_mem _ h1, h2⟩

theorem getEdgeL_of_mem_unique {ns : List Node} {l : Char} {x : Node}
    (hx : x ∈ ns) (hlx : x.label = l)
    (huniq : ∀ d ∈ ns, d.label = l → d = x) : getEdgeL l ns = some x := by
  induction ns with
  | nil => cases hx
  | cons d rest ih =>
    by_cases hd : d.label = l
    · rw [getEdgeL, if_pos hd]
      rw [huniq d (List.mem_cons_self _ _) hd]
    · rw [getEdgeL, if_neg hd]
      rcases List.mem_cons.mp hx with rfl | hx2
      · exact absurd hlx hd
      · exact ih hx2 (fun e he hl => huniq e (List.mem_cons_of_mem _ he) hl)

/-- Strictly sorted labels are unique: two members with the same label are
the same node. -/
theorem label_unique {ns : List Node}
    (hsort : ns.Pairwise (fun a b => a.label < b.label)) :
    ∀ c ∈ ns, ∀ d ∈ ns, c.label = d.label → c = d := by
  induction ns with
  | nil => intro c hc; cases hc
  | cons x rest ih =>
    rw [List.pairwise_cons] at hsort
    intro c hc d hd heq
    rcases List.mem_cons.mp hc with rfl | hc2
    · rcases List.mem_cons.mp hd with rfl | hd2
      · rfl
      · exact absurd (heq ▸ hsort.1 d hd2) (lt_irrefl _)
    · rcases List.mem_cons.mp hd with rfl | hd2
      · exact absurd (heq ▸ hsort.1 c hc2) (by simp)
      · exact ih hsort.2 c hc2 d hd2 heq

theorem insertByLabel_perm (c : Node) :
    ∀ l : List Node, List.Perm (insertByLabel c l) (c :: l) := by
  intro l
  induction l with
  | nil => exact List.Perm.refl _
  | cons d rest ih =>
    rw [insertByLabel]
    by_cases h : c.label ≤ d.label
    · rw [if_pos h]
    · rw [if_neg h]
      exact (ih.cons d).trans (List.Perm.swap c d rest)

theorem sortNodes_perm : ∀ l : List Node, List.Perm (sortNodes l) l := by
  intro l
  induction l with
  | nil => exact List.Perm.refl _
  | cons d rest ih =>
    rw [sortNodes]
    exact (insertByLabel_perm d (sortNodes rest)).trans (ih.cons d)

theorem insertByLabel_sorted (c : Node) :
    ∀ l : List Node, l.Pairwise (fun a b => a.label ≤ b.label) →
      (insertByLabel c l).Pairwise (fun a b => a.label ≤ b.label) := by
  intro l
  induction l with
  | nil => intro _; simp [insertByLabel]
  | cons d rest ih =>
    intro h
    rw [List.pairwise_cons] at h
    rw [insertByLabel]
    by_cases hc : c.label ≤ d.label
    · rw [if_pos hc]
      refine List.Pairwise.cons ?_ (List.Pairwise.cons h.1 h.2)
      intro e he
      rcases List.mem_cons.mp he with rfl | he2
      · exact hc
      · exact le_trans hc (h.1 e he2)
    · rw [if_neg hc]
      refine List.Pairwise.cons ?_ (ih h.2)
      intro e he
      have := (insertByLabel_perm c rest).mem_iff.mp he
      rcases List.mem_cons.mp this with rfl | he2
      · exact le_of_lt (lt_of_not_le hc)
      · exact h.1 e he2

theorem sortNodes_sorted : ∀ l : List Node,
    (sortNodes l).Pairwise (fun a b => a.label ≤ b.label) := by
  intro l
  induction l with
  | nil => simp [sortNodes]
  | cons d rest ih => exact insertByLabel_sorted d _ ih

/-- Sorting a list whose labels are pairwise distinct yields strictly
increasing labels. -/
theorem sortNodes_strict (l : List Node)
    (h : l.Pairwise (fun a b => a.label ≠ b.label)) :
    (sortNodes l).Pairwise (fun a b => a.label < b.label) := by
  have hne : (sortNodes l).Pairwise (fun a b => a.label ≠ b.label) :=
    h.perm (sortNodes_perm l).symm (fun hab => hab.symm)
  have hle := sortNodes_sorted l
  exact (hle.and hne).imp (fun h => lt_of_le_of_ne h.1 h.2)

/-! ### Trie: longest common prefix, prefix tests, list surgery -/

theorem longestPrefixLen_le_left : ∀ a b : List Char, longestPrefixLen a b ≤ a.length := by
  intro a
  induction a with
  | nil => intro b; cases b <;> simp [longestPrefixLen]
  | cons x as ih =>
    intro b
    cases b with
    | nil => simp [longestPrefixLen]
    | cons y bs =>
      rw [longestPrefixLen]
      by_cases h : x = y
      · rw [if_pos h, List.length_cons]
        exact Nat.succ_le_succ (ih bs)
      · rw [if_neg h]
        exact Nat.zero_le _

theorem longestPrefixLen_le_right : ∀ a b : List Char, longestPrefixLen a b ≤ b.length := by
  intro a
  induction a with
  | nil => intro b; cases b <;> simp [longestPrefixLen]
  | cons x as ih =>
    intro b
    cases b with
    | nil => simp [longestPrefixLen]
    | cons y bs =>
      rw [longestPrefixLen]
      by_cases h : x = y
      · rw [if_pos h, List.length_cons]
        exact Nat.succ_le_succ (ih bs)
      · rw [if_neg h]
        exact Nat.zero_le _

theorem longestPrefixLen_self : ∀ a : List Char, longestPrefixLen a a = a.length := by
  intro a
  induction a with
  | nil => rfl
  | cons x as ih => rw [longestPrefixLen, if_pos rfl, ih, List.length_cons]

theorem longestPrefixLen_take : ∀ (a : List Char) (l : Nat), l ≤ a.length →
    longestPrefixLen a (a.take l) = l := by
  intro a
  induction a with
  | nil =>
    intro l hl
    have : l = 0 := by simpa using hl
    subst this
    rfl
  | cons x as ih =>
    intro l hl
    cases l with
    | zero => rfl
    | succ m =>
      rw [List.take_succ_cons, longestPrefixLen, if_pos rfl,
        ih m (by simpa using hl)]

theorem longestPrefixLen_ne : ∀ a b : List Char, longestPrefixLen a b < a.length →
    longestPrefixLen a b < b.length →
    a.getD (longestPrefixLen a b) zeroByte ≠ b.getD (longestPrefixLen a b) zeroByte := by
  intro a
  induction a with
  | nil => intro b h1 _; simp at h1
  | cons x as ih =>
    intro b h1 h2
    cases b with
    | nil => simp at h2
    | cons y bs =>
      by_cases h : x = y
      · rw [longestPrefixLen, if_pos h] at h1 h2 ⊢
        simpa [List.getD_cons_succ] using
          ih bs (by simpa using h1) (by simpa using h2)
      · rw [longestPrefixLen, if_neg h]
        simpa [List.getD_cons_zero] using h

theorem longestPrefixLen_pos : ∀ a b : List Char, a ≠ [] → a.head? = b.head? →
    1 ≤ longestPrefixLen a b := by
  intro a b ha hh
  cases a with
  | nil => exact absurd rfl ha
  | cons x as =>
    cases b with
    | nil => simp at hh
    | cons y bs =>
      simp only [List.head?_cons, Option.some.injEq] at hh
      rw [longestPrefixLen, if_pos hh]
      exact Nat.succ_le_succ (Nat.zero_le _)

theorem hasPrefixCh_iff_lpl : ∀ s p : List Char,
    hasPrefixCh s p = true ↔ longestPrefixLen s p = p.length := by
  intro s
  induction s with
  | nil =>
    intro p
    cases p with
    | nil => simp [hasPrefixCh, longestPrefixLen]
    | cons y bs => simp [hasPrefixCh, longestPrefixLen]
  | cons x ss ih =>
    intro p
    cases p with
    | nil => simp [hasPrefixCh, longestPrefixLen]
    | cons y bs =>
      rw [hasPrefixCh, longestPrefixLen]
      by_cases h : x = y
      · simp [h, ih bs]
      · simp [h]

theorem hasPrefixCh_length {s p : List Char} (h : hasPrefixCh s p = true) :
    p.length ≤ s.length := by
  rw [hasPrefixCh_iff_lpl] at h
  calc p.length = longestPrefixLen s p := h.symm
    _ ≤ s.length := longestPrefixLen_le_left s p

theorem nthNode_eq {ns : List Node} {i : Int} (h0 : 0 ≤ i) (hl : i < (ns.length : Int)) :
    ∃ hk : i.toNat < ns.length, nthNode ns i = ns.get ⟨i.toNat, hk⟩ := by
  have hk : i.toNat < ns.length := by omega
  refine ⟨hk, ?_⟩
  unfold nthNode
  rw [dif_pos ⟨h0, hk⟩]

theorem replaceChildL_append (lbl : Char) (x : Node) :
    ∀ (pre : List Node) (d : Node) (post : List Node), (∀ p ∈ pre, p.label ≠ lbl) →
      d.label = lbl →
      replaceChildL lbl x (pre ++ d :: post) = some (pre ++ x.withLabel lbl :: post) := by
  intro pre
  induction pre with
  | nil =>
    intro d post _ hd
    rw [List.nil_append, replaceChildL, if_pos hd, List.nil_append]
  | cons p ps ih =>
    intro d post hpre hd
    rw [List.cons_append, replaceChildL, if_neg (hpre p (List.mem_cons_self _ _)),
      ih d post (fun q hq => hpre q (List.mem_cons_of_mem _ hq)) hd]
    rfl

theorem getEdgeL_decomp {l : Char} : ∀ {ns : List Node} {c : Node},
    getEdgeL l ns = some c →
    ∃ pre post, ns = pre ++ c :: post ∧ ∀ p ∈ pre, p.label ≠ l := by
  intro ns
  induction ns with
  | nil => intro c h; cases h
  | cons d rest ih =>
    intro c h
    by_cases hd : d.label = l
    · rw [getEdgeL, if_pos hd] at h
      cases h
      exact ⟨[], rest, rfl, by simp⟩
    · rw [getEdgeL, if_neg hd] at h
      obtain ⟨pre, post, heq, hpre⟩ := ih h
      refine ⟨d :: pre, post, by rw [heq]; rfl, ?_⟩
      intro p hp
      rcases List.mem_cons.mp hp with rfl | hp2
      · exact hd
      · exact hpre p hp2

/-- Strict sortedness only depends on the label sequence. -/
theorem pairwise_label_congr {ns ms : List Node}
    (h : ns.map Node.label = ms.map Node.label)
    (hp : ns.Pairwise (fun a b => a.label < b.label)) :
    ms.Pairwise (fun a b => a.label < b.label) := by
  have h1 : (ns.map Node.label).Pairwise (fun a b : Char => a < b) :=
    List.pairwise_map.mpr hp
  rw [h] at h1
  exact List.pairwise_map.mp h1

/-! ### Trie: the binary search of findEdge agrees with the linear scan -/

theorem sorted_label_lt {ns : List Node}
    (hsort : ns.Pairwise (fun a b => a.label < b.label))
    {a b : Nat} (ha : a < ns.length) (hb : b < ns.length) (hab : a < b) :
    (ns.get ⟨a, ha⟩).label < (ns.get ⟨b, hb⟩).label :=
  List.pairwise_iff_get.mp hsort ⟨a, ha⟩ ⟨b, hb⟩ hab

theorem sorted_label_le {ns : List Node}
    (hsort : ns.Pairwise (fun a b => a.label < b.label))
    {a b : Nat} (ha : a < ns.length) (hb : b < ns.length) (hab : a ≤ b) :
    (ns.get ⟨a, ha⟩).label ≤ (ns.get ⟨b, hb⟩).label := by
  rcases Nat.lt_or_ge a b with h | h
  · exact le_of_lt (sorted_label_lt hsort ha hb h)
  · have : a = b := le_antisymm hab h
    subst this
    exact le_refl _

theorem findEdgeLoop_spec (ns : List Node) (l : Char)
    (hsort : ns.Pairwise (fun a b => a.label < b.label)) :
    ∀ (fuel : Nat) (i j idx0 : Int), 0 ≤ i → j < (ns.length : Int) →
      (i ≤ j → (j - i).toNat < fuel) → 0 ≤ idx0 → idx0 < (ns.length : Int) →
      (∀ (k : Nat) (hk : k < ns.length), (ns.get ⟨k, hk⟩).label = l →
        i ≤ (k : Int) ∧ (k : Int) ≤ j) →
      (0 ≤ findEdgeLoop ns l fuel i j idx0 ∧
        findEdgeLoop ns l fuel i j idx0 < (ns.length : Int)) ∧
      (∀ (k : Nat) (hk : k < ns.length), (ns.get ⟨k, hk⟩).label = l →
        findEdgeLoop ns l fuel i j idx0 = (k : Int)) := by
  intro fuel
  induction fuel with
  | zero =>
    intro i j idx0 hi hj hfuel hidx0 hidx0' htgt
    by_cases hij : i ≤ j
    · exact absurd (hfuel hij) (by omega)
    · refine ⟨⟨hidx0, hidx0'⟩, ?_⟩
      intro k hkk hkl
      obtain ⟨h1, h2⟩ := htgt k hkk hkl
      omega
  | succ fuel ih =>
    intro i j idx0 hi hj hfuel hidx0 hidx0' htgt
    simp only [findEdgeLoop]
    by_cases hij : i ≤ j
    · rw [if_pos hij]
      have hw : (j - i).toNat < fuel + 1 := hfuel hij
      have hd0 : 0 ≤ (j - i) / 2 := Int.ediv_nonneg (by omega) (by norm_num)
      have hd1 : (j - i) / 2 ≤ j - i := Int.ediv_le_self _ (by omega)
      generalize hidxdef : i + (j - i) / 2 = idx
      have hirange : i ≤ idx := by omega
      have hjrange : idx ≤ j := by omega
      have h0idx : 0 ≤ idx := by omega
      have hlidx : idx < (ns.length : Int) := by omega
      obtain ⟨hk, hnth⟩ := nthNode_eq h0idx hlidx
      rw [hnth]
      rcases lt_trichotomy (ns.get ⟨idx.toNat, hk⟩).label l with hlt | heq | hgt
      · rw [if_pos hlt]
        have hf1 : idx + 1 ≤ j → (j - (idx + 1)).toNat < fuel := fun hle => by omega
        apply ih (idx + 1) j idx (by omega) hj hf1 h0idx hlidx
        intro k hkk hkl
        obtain ⟨h1, h2⟩ := htgt k hkk hkl
        refine ⟨?_, h2⟩
        by_contra hcon
        push_neg at hcon
        have hkle : k ≤ idx.toNat := by omega
        have := sorted_label_le hsort hkk hk hkle
        rw [hkl] at this
        exact absurd (lt_of_le_of_lt this hlt) (lt_irrefl _)
      · rw [if_neg (by rw [heq]; exact lt_irrefl _), if_neg (by rw [heq]; exact lt_irrefl _)]
        refine ⟨⟨h0idx, hlidx⟩, ?_⟩
        intro k hkk hkl
        rcases Nat.lt_trichotomy k idx.toNat with h | h | h
        · have := sorted_label_lt hsort hkk hk h
          rw [hkl, heq] at this
          exact absurd this (lt_irrefl _)
        · omega
        · have := sorted_label_lt hsort hk hkk h
          rw [hkl, heq] at this
          exact absurd this (lt_irrefl _)
      · rw [if_neg (by exact not_lt.mpr (le_of_lt hgt)), if_pos hgt]
        have hf2 : i ≤ idx - 1 → ((idx - 1) - i).toNat < fuel := fun hle => by omega
        apply ih i (idx - 1) idx hi (by omega) hf2 h0idx hlidx
        intro k hkk hkl
        obtain ⟨h1, h2⟩ := htgt k hkk hkl
        refine ⟨h1, ?_⟩
        by_contra hcon
        push_neg at hcon
        have hkge : idx.toNat ≤ k := by omega
        have := sorted_label_le hsort hk hkk hkge
        rw [hkl] at this
        exact absurd (lt_of_lt_of_le hgt this) (lt_irrefl _)
    · rw [if_neg hij]
      refine ⟨⟨hidx0, hidx0'⟩, ?_⟩
      intro k hkk hkl
      obtain ⟨h1, h2⟩ := htgt k hkk hkl
      omega

/-- C9's computational content: on strictly label-sorted children, the
binary-search `findEdge` returns exactly what the linear scan `getEdge`
would. -/
theorem findEdge_eq_getEdgeL (ns : List Node) (l : Char)
    (hsort : ns.Pairwise (fun a b => a.label < b.label)) :
    findEdge ns l = getEdgeL l ns := by
  cases hns : ns with
  | nil => rfl
  | cons n0 rest =>
    rw [← hns]
    have hlen : ns.length ≠ 0 := by rw [hns]; simp
    rw [findEdge, if_neg hlen]
    dsimp only
    have hspec := findEdgeLoop_spec ns l hsort (ns.length + 1) 0 ((ns.length : Int) - 1) 0
      (by omega) (by omega) (fun _ => by omega) (by omega) (by omega)
      (by
        intro k hk _
        constructor
        · omega
        · omega)
    obtain ⟨⟨hr0, hrl⟩, huniq⟩ := hspec
    obtain ⟨hk, hnth⟩ := nthNode_eq hr0 hrl
    rw [hnth]
    cases hg : getEdgeL l ns with
    | none =>
      have hnone := getEdgeL_eq_none.mp hg
      rw [if_neg (hnone _ (ns.get_mem _ _))]
    | some c =>
      obtain ⟨hcm, hcl⟩ := getEdgeL_mem hg
      obtain ⟨kc, hgetc⟩ := List.mem_iff_get.mp hcm
      have hr := huniq kc kc.isLt (by rw [hgetc]; exact hcl)
      have : (findEdgeLoop ns l (ns.length + 1) 0 ((ns.length : Int) - 1) 0).toNat = kc := by
        omega
      have hget2 : ns.get ⟨(findEdgeLoop ns l (ns.length + 1) 0 ((ns.length : Int) - 1) 0).toNat, hk⟩ = c := by
        rw [← hgetc]
        congr 1
        exact Fin.ext this
      rw [hget2, if_pos hcl]

/-! ### Trie: insert preserves the invariant -/

theorem mem_sortNodes {x : Node} {l : List Node} : x ∈ sortNodes l ↔ x ∈ l :=
  (sortNodes_perm l).mem_iff

theorem sorted_append_fresh {ch : List Node} {leaf : Node}
    (hsort : ch.Pairwise (fun a b => a.label < b.label))
    (hfresh : ∀ c ∈ ch, c.label ≠ leaf.label) :
    (sortNodes (ch ++ [leaf])).Pairwise (fun a b => a.label < b.label) := by
  apply sortNodes_strict
  rw [List.pairwise_append]
  refine ⟨hsort.imp (fun h => ne_of_lt h), by simp, ?_⟩
  intro a ha b hb
  rw [List.mem_singleton] at hb
  subst hb
  exact hfresh a ha

theorem getD_of_drop : ∀ (a : List Char) (l : Nat) (c2 : Char) (r : List Char),
    a.drop l = c2 :: r → a.getD l zeroByte = c2 := by
  intro a
  induction a with
  | nil => intro l c2 r h; rw [List.drop_nil] at h; cases h
  | cons x as ih =>
    intro l c2 r h
    cases l with
    | zero =>
      rw [List.drop_zero] at h
      injection h
    | succ m =>
      rw [List.drop_succ_cons] at h
      rw [List.getD_cons_succ]
      exact ih m c2 r h

theorem head?_drop : ∀ (a : List Char) (l : Nat), l < a.length →
    (a.drop l).head? = some (a.getD l zeroByte) := by
  intro a
  induction a with
  | nil => intro l h; simp at h
  | cons x as ih =>
    intro l h
    cases l with
    | zero => rfl
    | succ m =>
      rw [List.drop_succ_cons, List.getD_cons_succ]
      exact ih m (by simpa using h)

theorem Inv_withLabel {x : Node} (h : Inv x) (c : Char) : Inv (x.withLabel c) :=
  Inv.intro_node h.children_inv h.sorted h.pre_facts

/-- The intermediate node a split creates: it holds exactly the demoted child
and the fresh handler leaf, sorted. -/
theorem splitNode_inv (takePre : List Char) (c : Char) (demoted subchild : Node)
    (hdem : Inv demoted) (hsub : Inv subchild)
    (hne : demoted.label ≠ subchild.label)
    (hdp : demoted.pre ≠ []) (hdh : demoted.pre.head? = some demoted.label)
    (hsp : subchild.pre ≠ []) (hsh : subchild.pre.head? = some subchild.label) :
    Inv (((Node.mk takePre none [] c).addChild demoted).addChild subchild) := by
  apply Inv.intro_node
  · intro x hx
    have hx' : x ∈ sortNodes ([demoted] ++ [subchild]) := hx
    rcases List.mem_append.mp (mem_sortNodes.mp hx') with hx3 | hx3
    · rw [List.mem_singleton] at hx3
      subst hx3
      exact hdem
    · rw [List.mem_singleton] at hx3
      subst hx3
      exact hsub
  · show (sortNodes ([demoted] ++ [subchild])).Pairwise (fun a b => a.label < b.label)
    apply sortNodes_strict
    simp [hne]
  · intro x hx
    have hx' : x ∈ sortNodes ([demoted] ++ [subchild]) := hx
    rcases List.mem_append.mp (mem_sortNodes.mp hx') with hx3 | hx3
    · rw [List.mem_singleton] at hx3
      subst hx3
      exact ⟨hdp, hdh⟩
    · rw [List.mem_singleton] at hx3
      subst hx3
      exact ⟨hsp, hsh⟩

/-- The core preservation lemma for C9: a successful `insert` keeps the trie
invariant and leaves the node's own label and prefix unchanged. -/
theorem insertF_ok : ∀ (fuel : Nat) (n : Node) (op : OpType) (key : List Char)
    (hid : Nat) (n' : Node), Inv n → insertF fuel n op key hid = .ok n' →
    Inv n' ∧ n'.label = n.label ∧ n'.pre = n.pre := by
  intro fuel
  induction fuel with
  | zero => intro n op key hid n' _ h; cases h
  | succ fuel ih =>
    intro n op key hid n' hinv hins
    cases key with
    | nil =>
      simp only [insertF, Node.setHandler] at hins
      cases he : n.entry with
      | some x => rw [he] at hins; cases hins
      | none =>
        rw [he] at hins
        injection hins with h
        subst h
        refine ⟨?_, rfl, rfl⟩
        exact Inv.mk _ _ _ _ hinv.children_inv hinv.sorted hinv.pre_facts
    | cons c cs =>
      simp only [insertF] at hins
      cases hge : n.getEdge c with
      | none =>
        rw [hge] at hins
        injection hins with h
        subst h
        have hfresh : ∀ d ∈ n.children, d.label ≠ c :=
          getEdgeL_eq_none.mp hge
        refine ⟨?_, rfl, rfl⟩
        apply Inv.mk
        · intro d hd
          rcases mem_sortNodes.mp hd with hd2
          rcases List.mem_append.mp hd2 with hd3 | hd3
          · exact hinv.children_inv d hd3
          · rw [List.mem_singleton] at hd3
            subst hd3
            exact Inv.mk _ _ _ _ (by intro x hx; cases hx) (by simp) (by intro x hx; cases hx)
        · exact sorted_append_fresh hinv.sorted hfresh
        · intro d hd
          rcases mem_sortNodes.mp hd with hd2
          rcases List.mem_append.mp hd2 with hd3 | hd3
          · exact hinv.pre_facts d hd3
          · rw [List.mem_singleton] at hd3
            subst hd3
            exact ⟨by simp [Node.pre], rfl⟩
      | some child =>
        simp only [hge] at hins
        have hge' : getEdgeL c n.children = some child := hge
        obtain ⟨hcm, hcl⟩ := getEdgeL_mem hge'
        obtain ⟨pre0, post0, hdecomp, hpre0⟩ := getEdgeL_decomp hge'
        have hchinv : Inv child := hinv.children_inv child hcm
        by_cases hl : longestPrefixLen (c :: cs) child.pre = child.pre.length
        · rw [if_pos hl] at hins
          cases hrec : insertF fuel child op
              ((c :: cs).drop (longestPrefixLen (c :: cs) child.pre)) hid with
          | error e => simp only [hrec] at hins; cases hins
          | ok child' =>
            simp only [hrec] at hins
            obtain ⟨hinv', hlab', hpre'⟩ := ih child op _ hid child' hchinv hrec
            have hrc : replaceChildL c child' n.children
                = some (pre0 ++ child'.withLabel c :: post0) := by
              rw [hdecomp]
              exact replaceChildL_append c child' pre0 child post0 hpre0 hcl
            simp only [hrc] at hins
            injection hins with h
            subst h
            refine ⟨?_, rfl, rfl⟩
            apply Inv.mk
            · intro d hd
              rcases List.mem_append.mp hd with hd2 | hd2
              · exact hinv.children_inv d (by rw [hdecomp]; exact List.mem_append.mpr (Or.inl hd2))
              · rcases List.mem_cons.mp hd2 with rfl | hd3
                · exact Inv.intro_node hinv'.children_inv hinv'.sorted hinv'.pre_facts
                · exact hinv.children_inv d
                    (by rw [hdecomp]; exact List.mem_append.mpr (Or.inr (List.mem_cons_of_mem _ hd3)))
            · refine pairwise_label_congr ?_ hinv.sorted
              · rw [hdecomp]
                simp only [List.map_append, List.map_cons]
                rw [show (child'.withLabel c).label = child.label from hcl.symm ▸ rfl]
            · intro d hd
              rcases List.mem_append.mp hd with hd2 | hd2
              · exact hinv.pre_facts d (by rw [hdecomp]; exact List.mem_append.mpr (Or.inl hd2))
              · rcases List.mem_cons.mp hd2 with rfl | hd3
                · have hcf := hinv.pre_facts child (by rw [hdecomp]; exact List.mem_append.mpr (Or.inr (List.mem_cons_self _ _)))
                  refine ⟨?_, ?_⟩
                  · show child'.pre ≠ []
                    rw [hpre']
                    exact hcf.1
                  · show child'.pre.head? = some c
                    rw [hpre', ← hcl]
                    exact hcf.2
                · exact hinv.pre_facts d
                    (by rw [hdecomp]; exact List.mem_append.mpr (Or.inr (List.mem_cons_of_mem _ hd3)))
        · rw [if_neg hl] at hins
          cases hdrop : (c :: cs).drop (longestPrefixLen (c :: cs) child.pre) with
          | nil => simp only [hdrop] at hins; cases hins
          | cons c2 rest2 =>
            simp only [hdrop] at hins
            have hlle : longestPrefixLen (c :: cs) child.pre ≤ child.pre.length :=
              longestPrefixLen_le_right _ _
            have hllt : longestPrefixLen (c :: cs) child.pre < child.pre.length :=
              lt_of_le_of_ne hlle hl
            have hcf := hinv.pre_facts child hcm
            have hl1 : 1 ≤ longestPrefixLen (c :: cs) child.pre := by
              apply longestPrefixLen_pos _ _ (by simp)
              rw [hcf.2, hcl]
              rfl
            have hklt : longestPrefixLen (c :: cs) child.pre < (c :: cs).length := by
              by_contra hcon
              push_neg at hcon
              rw [List.drop_eq_nil_of_le hcon] at hdrop
              cases hdrop
            have hc2 : (c :: cs).getD (longestPrefixLen (c :: cs) child.pre) zeroByte = c2 :=
              getD_of_drop _ _ _ _ hdrop
            have hne2 : (child.pre.getD (longestPrefixLen (c :: cs) child.pre) zeroByte) ≠ c2 := by
              rw [← hc2]
              exact (longestPrefixLen_ne (c :: cs) child.pre hklt hllt).symm
            have hrc : replaceChildL c
                (Node.addChild (Node.addChild
                  (.mk ((c :: cs).take (longestPrefixLen (c :: cs) child.pre)) none [] c)
                  (.mk (child.pre.drop (longestPrefixLen (c :: cs) child.pre)) child.entry
                    child.children
                    (child.pre.getD (longestPrefixLen (c :: cs) child.pre) zeroByte)))
                  (.mk ((c :: cs).drop (longestPrefixLen (c :: cs) child.pre))
                    (some (op, hid)) [] c2)) n.children
                = some (pre0 ++ (Node.addChild (Node.addChild
                  (.mk ((c :: cs).take (longestPrefixLen (c :: cs) child.pre)) none [] c)
                  (.mk (child.pre.drop (longestPrefixLen (c :: cs) child.pre)) child.entry
                    child.children
                    (child.pre.getD (longestPrefixLen (c :: cs) child.pre) zeroByte)))
                  (.mk ((c :: cs).drop (longestPrefixLen (c :: cs) child.pre))
                    (some (op, hid)) [] c2)).withLabel c :: post0) := by
              rw [hdecomp]
              exact replaceChildL_append c _ pre0 child post0 hpre0 hcl
            rw [← hdrop] at hins
            simp only [hrc] at hins
            injection hins with h
            subst h
            refine ⟨?_, rfl, rfl⟩
            apply Inv.mk
            · intro d hd
              rcases List.mem_append.mp hd with hd2 | hd2
              · exact hinv.children_inv d (by rw [hdecomp]; exact List.mem_append.mpr (Or.inl hd2))
              · rcases List.mem_cons.mp hd2 with rfl | hd3
                · -- the split node
                  apply Inv_withLabel
                  apply splitNode_inv
                  · exact Inv.mk _ _ _ _ hchinv.children_inv hchinv.sorted hchinv.pre_facts
                  · exact Inv.mk _ _ _ _ (by intro y hy; cases hy) (by simp)
                      (by intro y hy; cases hy)
                  · exact hne2
                  · show child.pre.drop _ ≠ []
                    intro hcon
                    rw [List.drop_eq_nil_iff] at hcon
                    omega
                  · exact head?_drop _ _ hllt
                  · show (c :: cs).drop _ ≠ []
                    rw [hdrop]
                    simp
                  · show ((c :: cs).drop _).head? = some _
                    rw [hdrop]
                    rfl
                · exact hinv.children_inv d
                    (by rw [hdecomp]; exact List.mem_append.mpr (Or.inr (List.mem_cons_of_mem _ hd3)))
            · refine pairwise_label_congr ?_ hinv.sorted
              · rw [hdecomp]
                simp only [List.map_append, List.map_cons]
                rw [show ((((Node.mk ((c :: cs).take (longestPrefixLen (c :: cs) child.pre))
                    none [] c).addChild (Node.mk
                    (child.pre.drop (longestPrefixLen (c :: cs) child.pre)) child.entry
                    child.children (child.pre.getD (longestPrefixLen (c :: cs) child.pre)
                    zeroByte))).addChild (Node.mk
                    ((c :: cs).drop (longestPrefixLen (c :: cs) child.pre)) (some (op, hid))
                    [] c2)).withLabel c).label = child.label from hcl.symm ▸ rfl]
            · intro d hd
              rcases List.mem_append.mp hd with hd2 | hd2
              · exact hinv.pre_facts d (by rw [hdecomp]; exact List.mem_append.mpr (Or.inl hd2))
              · rcases List.mem_cons.mp hd2 with rfl | hd3
                · refine ⟨?_, ?_⟩
                  · show (c :: cs).take _ ≠ []
                    intro hcon
                    rcases List.take_eq_nil_iff.mp hcon with h0 | h0
                    · omega
                    · cases h0
                  · show ((c :: cs).take (longestPrefixLen (c :: cs) child.pre)).head? = some c
                    obtain ⟨m, hm⟩ : ∃ m, longestPrefixLen (c :: cs) child.pre = m + 1 :=
                      ⟨longestPrefixLen (c :: cs) child.pre - 1, by omega⟩
                    rw [hm, List.take_succ_cons]
                    rfl
                · exact hinv.pre_facts d
                    (by rw [hdecomp]; exact List.mem_append.mpr (Or.inr (List.mem_cons_of_mem _ hd3)))

theorem Inv_emptyNode : Inv emptyNode :=
  Inv.mk _ _ _ _ (by intro c hc; cases hc) (by simp) (by intro c hc; cases hc)

theorem foldlM_insert_inv : ∀ (ops : List (OpType × List Char × Nat)) (init t : Node),
    Inv init →
    (ops.foldlM (fun t x => t.insert x.1 x.2.1 x.2.2) init) = .ok t → Inv t := by
  intro ops
  induction ops with
  | nil =>
    intro init t h hf
    injection hf with h2
    subst h2
    exact h
  | cons x rest ih =>
    intro init t h hf
    rw [List.foldlM_cons] at hf
    cases hins : init.insert x.1 x.2.1 x.2.2 with
    | error e =>
      rw [hins] at hf
      cases hf
    | ok mid =>
      rw [hins] at hf
      obtain ⟨hinv', _, _⟩ := insertF_ok _ init x.1 x.2.1 x.2.2 mid h hins
      exact ih mid t hinv' hf

theorem reachable_inv {t : Node} (hr : Reachable t) : Inv t := by
  obtain ⟨ops, _, hb⟩ := hr
  exact foldlM_insert_inv ops emptyNode t Inv_emptyNode hb

/-- C9: every trie state built by a sequence of successful registrations
keeps every node's children strictly sorted by edge label (hence unique by
label) with each child's label the first byte of its nonempty prefix — and
on such children lists the binary-search `findEdge` returns exactly what the
linear scan `getEdge` would. -/
theorem trie_children_sorted_invariant (t : Node) (hr : Reachable t) :
    Inv t ∧ ∀ (m : Node) (l : Char), Inv m →
      findEdge m.children l = getEdgeL l m.children :=
  ⟨reachable_inv hr, fun m l hm => findEdge_eq_getEdgeL m.children l hm.sorted⟩

/-- Witness for C9 on the three-key example trie. -/
theorem trie_children_sorted_invariant_witness :
    Reachable exampleTrie
    ∧ (Inv exampleTrie ∧ ∀ (m : Node) (l : Char), Inv m →
        findEdge m.children l = getEdgeL l m.children) := by
  have hne : ∀ x ∈ exampleOps, x.2.1 ≠ [] := by
    intro x hx
    simp only [exampleOps, List.mem_cons, List.not_mem_nil, or_false] at hx
    rcases hx with rfl | rfl | rfl <;> decide
  have hreach : Reachable exampleTrie := ⟨exampleOps, hne, rfl⟩
  exact ⟨hreach, trie_children_sorted_invariant exampleTrie hreach⟩

/-! ### Trie: a second registration of an existing key always panics -/

theorem withLabel_self : ∀ x : Node, x.withLabel x.label = x := by
  intro x
  cases x
  rfl

theorem getEdgeL_sortNodes_fresh {ch : List Node} {leaf : Node} {c : Char}
    (hfresh : ∀ d ∈ ch, d.label ≠ c) (hl : leaf.label = c) :
    getEdgeL c (sortNodes (ch ++ [leaf])) = some leaf := by
  apply getEdgeL_of_mem_unique
  · exact mem_sortNodes.mpr (List.mem_append.mpr (Or.inr (List.mem_singleton.mpr rfl)))
  · exact hl
  · intro d hd hdl
    rcases List.mem_append.mp (mem_sortNodes.mp hd) with h1 | h1
    · exact absurd hdl (hfresh d h1)
    · exact List.mem_singleton.mp h1

theorem getEdgeL_replaced {pre0 post0 : List Node} {c : Char} {x : Node}
    (hpre0 : ∀ p ∈ pre0, p.label ≠ c) :
    getEdgeL c (pre0 ++ x.withLabel c :: post0) = some (x.withLabel c) := by
  induction pre0 with
  | nil =>
    rw [List.nil_append, getEdgeL, if_pos (show (x.withLabel c).label = c from rfl)]
  | cons p ps ih =>
    rw [List.cons_append, getEdgeL, if_neg (hpre0 p (List.mem_cons_self _ _))]
    rw [ih (fun q hq => hpre0 q (List.mem_cons_of_mem _ hq))]

theorem getEdgeL_pair {demoted subchild : Node} {c2 : Char}
    (hne : demoted.label ≠ c2) (hs : subchild.label = c2) :
    getEdgeL c2 (sortNodes ([demoted] ++ [subchild])) = some subchild := by
  apply getEdgeL_of_mem_unique
  · exact mem_sortNodes.mpr (by simp)
  · exact hs
  · intro d hd hdl
    rcases List.mem_append.mp (mem_sortNodes.mp hd) with h1 | h1
    · rw [List.mem_singleton] at h1
      subst h1
      exact absurd hdl hne
    · exact List.mem_singleton.mp h1

theorem insertF_nil_dup (f : Nat) (x : Node) (op' : OpType) (hid' : Nat)
    (q : OpType × Nat) (hq : x.entry = some q) :
    insertF (f + 1) x op' [] hid' = .error .duplicateHandler := by
  simp only [insertF, Node.setHandler, hq]

/-- One descent step of `insert` when the child's prefix is consumed
entirely: an error from the recursive insert propagates. -/
theorem insertF_cons_step (f : Nat) (n ch : Node) (op' : OpType) (c : Char)
    (cs : List Char) (hid' : Nat) (e : InsErr)
    (hged : n.getEdge c = some ch)
    (hlen : longestPrefixLen (c :: cs) ch.pre = ch.pre.length)
    (hrec : insertF f ch op' ((c :: cs).drop (longestPrefixLen (c :: cs) ch.pre)) hid'
      = .error e) :
    insertF (f + 1) n op' (c :: cs) hid' = .error e := by
  simp only [insertF, hged, if_pos hlen, hrec]

/-- After a successful registration of `key`, registering exactly `key`
again — under any operation kind — runs into the "multiple handlers
registered for the same command" panic. -/
theorem insertF_dup : ∀ (fuel : Nat) (n : Node) (op : OpType) (key : List Char)
    (hid : Nat) (n' : Node), Inv n → insertF fuel n op key hid = .ok n' →
    ∀ (fuel' : Nat) (op' : OpType) (hid' : Nat), key.length < fuel' →
      insertF fuel' n' op' key hid' = .error .duplicateHandler := by
  intro fuel
  induction fuel with
  | zero => intro n op key hid n' _ h; cases h
  | succ fuel ih =>
    intro n op key hid n' hinv hins fuel' op' hid' hf'
    obtain ⟨f2, rfl⟩ : ∃ f2, fuel' = f2 + 1 := ⟨fuel' - 1, by omega⟩
    cases key with
    | nil =>
      simp only [insertF, Node.setHandler] at hins
      cases he : n.entry with
      | some x => rw [he] at hins; cases hins
      | none =>
        rw [he] at hins
        injection hins with h
        subst h
        rfl
    | cons c cs =>
      simp only [insertF] at hins
      cases hge : n.getEdge c with
      | none =>
        rw [hge] at hins
        injection hins with h
        subst h
        have hfresh := getEdgeL_eq_none.mp hge
        obtain ⟨f3, rfl⟩ : ∃ f3, f2 = f3 + 1 := ⟨f2 - 1, by
          have := List.length_cons c cs
          omega⟩
        apply insertF_cons_step (f3 + 1) _ (Node.mk (c :: cs) (some (op, hid)) [] c) op' c cs
          hid' _
        · exact getEdgeL_sortNodes_fresh hfresh rfl
        · show longestPrefixLen (c :: cs) (c :: cs) = (c :: cs).length
          exact longestPrefixLen_self _
        · rw [show (c :: cs).drop (longestPrefixLen (c :: cs)
              (Node.mk (c :: cs) (some (op, hid)) [] c).pre) = [] by
            show (c :: cs).drop (longestPrefixLen (c :: cs) (c :: cs)) = []
            rw [longestPrefixLen_self, List.drop_length]]
          exact insertF_nil_dup f3 _ op' hid' (op, hid) rfl
      | some child =>
        simp only [hge] at hins
        have hge' : getEdgeL c n.children = some child := hge
        obtain ⟨hcm, hcl⟩ := getEdgeL_mem hge'
        obtain ⟨pre0, post0, hdecomp, hpre0⟩ := getEdgeL_decomp hge'
        have hchinv := hinv.children_inv child hcm
        have hcpre := hinv.pre_facts child hcm
        have hl1 : 1 ≤ child.pre.length := List.length_pos.mpr hcpre.1
        by_cases hl : longestPrefixLen (c :: cs) child.pre = child.pre.length
        · rw [if_pos hl] at hins
          cases hrec : insertF fuel child op
              ((c :: cs).drop (longestPrefixLen (c :: cs) child.pre)) hid with
          | error e => simp only [hrec] at hins; cases hins
          | ok child' =>
            simp only [hrec] at hins
            obtain ⟨hinv', hlab', hpre'⟩ := insertF_ok fuel child op _ hid child' hchinv hrec
            have hrc : replaceChildL c child' n.children
                = some (pre0 ++ child'.withLabel c :: post0) := by
              rw [hdecomp]
              exact replaceChildL_append c child' pre0 child post0 hpre0 hcl
            simp only [hrc] at hins
            injection hins with h
            subst h
            have hwl : child'.withLabel c = child' := by
              rw [show c = child'.label from (hlab'.trans hcl).symm]
              exact withLabel_self child'
            have hget2 : (Node.mk n.pre n.entry (pre0 ++ child'.withLabel c :: post0)
                n.label).getEdge c = some (child'.withLabel c) := getEdgeL_replaced hpre0
            rw [hwl] at hget2
            rw [hwl]
            have hdup := ih child op ((c :: cs).drop (longestPrefixLen (c :: cs) child.pre))
              hid child' hchinv hrec f2 op' hid' (by
                have hlen := longestPrefixLen_le_left (c :: cs) child.pre
                have hld : ((c :: cs).drop (longestPrefixLen (c :: cs) child.pre)).length
                    = (c :: cs).length - longestPrefixLen (c :: cs) child.pre := by
                  simp [List.length_drop]
                rw [hld]
                have := List.length_cons c cs
                omega)
            apply insertF_cons_step f2 _ child' op' c cs hid' _ hget2
            · rw [hpre']
              exact hl
            · rw [hpre']
              exact hdup
        · rw [if_neg hl] at hins
          cases hdrop : (c :: cs).drop (longestPrefixLen (c :: cs) child.pre) with
          | nil => simp only [hdrop] at hins; cases hins
          | cons c2 rest2 =>
            simp only [hdrop] at hins
            have hlle : longestPrefixLen (c :: cs) child.pre ≤ child.pre.length :=
              longestPrefixLen_le_right _ _
            have hllt : longestPrefixLen (c :: cs) child.pre < child.pre.length :=
              lt_of_le_of_ne hlle hl
            have hklt : longestPrefixLen (c :: cs) child.pre < (c :: cs).length := by
              by_contra hcon
              push_neg at hcon
              rw [List.drop_eq_nil_of_le hcon] at hdrop
              cases hdrop
            have hpl1 : 1 ≤ longestPrefixLen (c :: cs) child.pre := by
              apply longestPrefixLen_pos _ _ (by simp)
              rw [hcpre.2, hcl]
              rfl
            have hc2 : (c :: cs).getD (longestPrefixLen (c :: cs) child.pre) zeroByte = c2 :=
              getD_of_drop _ _ _ _ hdrop
            have hne2 : (child.pre.getD (longestPrefixLen (c :: cs) child.pre) zeroByte)
                ≠ c2 := by
              rw [← hc2]
              exact (longestPrefixLen_ne (c :: cs) child.pre hklt hllt).symm
            have hrc : replaceChildL c
                (Node.addChild (Node.addChild
                  (.mk ((c :: cs).take (longestPrefixLen (c :: cs) child.pre)) none [] c)
                  (.mk (child.pre.drop (longestPrefixLen (c :: cs) child.pre)) child.entry
                    child.children
                    (child.pre.getD (longestPrefixLen (c :: cs) child.pre) zeroByte)))
                  (.mk ((c :: cs).drop (longestPrefixLen (c :: cs) child.pre))
                    (some (op, hid)) [] c2)) n.children
                = some (pre0 ++ (Node.addChild (Node.addChild
                  (.mk ((c :: cs).take (longestPrefixLen (c :: cs) child.pre)) none [] c)
                  (.mk (child.pre.drop (longestPrefixLen (c :: cs) child.pre)) child.entry
                    child.children
                    (child.pre.getD (longestPrefixLen (c :: cs) child.pre) zeroByte)))
                  (.mk ((c :: cs).drop (longestPrefixLen (c :: cs) child.pre))
                    (some (op, hid)) [] c2)).withLabel c :: post0) := by
              rw [hdecomp]
              exact replaceChildL_append c _ pre0 child post0 hpre0 hcl
            rw [← hdrop] at hins
            simp only [hrc] at hins
            injection hins with h
            subst h
            obtain ⟨f3, rfl⟩ : ∃ f3, f2 = f3 + 1 := ⟨f2 - 1, by
              have := List.length_cons c cs
              omega⟩
            obtain ⟨f4, rfl⟩ : ∃ f4, f3 = f4 + 1 := ⟨f3 - 1, by
              have h1 := List.length_drop (longestPrefixLen (c :: cs) child.pre) (c :: cs)
              rw [hdrop] at h1
              have h2 := List.length_cons c2 rest2
              have h3 := List.length_cons c cs
              omega⟩
            have htake : longestPrefixLen (c :: cs)
                ((c :: cs).take (longestPrefixLen (c :: cs) child.pre))
                = longestPrefixLen (c :: cs) child.pre :=
              longestPrefixLen_take _ _ (le_of_lt hklt)
            have hlen_take : ((c :: cs).take (longestPrefixLen (c :: cs) child.pre)).length
                = longestPrefixLen (c :: cs) child.pre := by
              rw [List.length_take]
              omega
            have hgetpair : getEdgeL c2 (sortNodes
                ([(Node.mk (child.pre.drop (longestPrefixLen (c :: cs) child.pre)) child.entry
                    child.children
                    (child.pre.getD (longestPrefixLen (c :: cs) child.pre) zeroByte))]
                 ++ [(Node.mk ((c :: cs).drop (longestPrefixLen (c :: cs) child.pre))
                    (some (op, hid)) [] c2)]))
                = some (Node.mk ((c :: cs).drop (longestPrefixLen (c :: cs) child.pre))
                    (some (op, hid)) [] c2) :=
              getEdgeL_pair hne2 rfl
            -- the three nested steps of the second insert
            have hinner : insertF (f4 + 1)
                (Node.mk ((c :: cs).drop (longestPrefixLen (c :: cs) child.pre))
                  (some (op, hid)) [] c2) op'
                ((c2 :: rest2).drop (longestPrefixLen (c2 :: rest2)
                  (Node.mk ((c :: cs).drop (longestPrefixLen (c :: cs) child.pre))
                    (some (op, hid)) [] c2).pre)) hid'
                = .error .duplicateHandler := by
              rw [show (c2 :: rest2).drop (longestPrefixLen (c2 :: rest2)
                  (Node.mk ((c :: cs).drop (longestPrefixLen (c :: cs) child.pre))
                    (some (op, hid)) [] c2).pre) = [] by
                show (c2 :: rest2).drop (longestPrefixLen (c2 :: rest2)
                  ((c :: cs).drop (longestPrefixLen (c :: cs) child.pre))) = []
                rw [hdrop, longestPrefixLen_self, List.drop_length]]
              exact insertF_nil_dup f4 _ op' hid' (op, hid) rfl
            have hmid : insertF (f4 + 1 + 1)
                ((Node.addChild (Node.addChild
                  (.mk ((c :: cs).take (longestPrefixLen (c :: cs) child.pre)) none [] c)
                  (.mk (child.pre.drop (longestPrefixLen (c :: cs) child.pre)) child.entry
                    child.children
                    (child.pre.getD (longestPrefixLen (c :: cs) child.pre) zeroByte)))
                  (.mk ((c :: cs).drop (longestPrefixLen (c :: cs) child.pre))
                    (some (op, hid)) [] c2)).withLabel c) op' (c2 :: rest2) hid'
                = .error .duplicateHandler := by
              apply insertF_cons_step (f4 + 1) _
                (Node.mk ((c :: cs).drop (longestPrefixLen (c :: cs) child.pre))
                  (some (op, hid)) [] c2) op' c2 rest2 hid' _
              · exact hgetpair
              · show longestPrefixLen (c2 :: rest2)
                    ((c :: cs).drop (longestPrefixLen (c :: cs) child.pre))
                  = ((c :: cs).drop (longestPrefixLen (c :: cs) child.pre)).length
                rw [hdrop]
                exact longestPrefixLen_self _
              · exact hinner
            apply insertF_cons_step (f4 + 1 + 1) _ _ op' c cs hid' _
            · exact getEdgeL_replaced hpre0
            · show longestPrefixLen (c :: cs)
                  ((c :: cs).take (longestPrefixLen (c :: cs) child.pre))
                = ((c :: cs).take (longestPrefixLen (c :: cs) child.pre)).length
              rw [htake, hlen_take]
            · rw [show (c :: cs).drop (longestPrefixLen (c :: cs)
                  ((Node.addChild (Node.addChild
                    (.mk ((c :: cs).take (longestPrefixLen (c :: cs) child.pre)) none [] c)
                    (.mk (child.pre.drop (longestPrefixLen (c :: cs) child.pre)) child.entry
                      child.children
                      (child.pre.getD (longestPrefixLen (c :: cs) child.pre) zeroByte)))
                    (.mk ((c :: cs).drop (longestPrefixLen (c :: cs) child.pre))
                      (some (op, hid)) [] c2)).withLabel c).pre)
                  = c2 :: rest2 by
                show (c :: cs).drop (longestPrefixLen (c :: cs)
                  ((c :: cs).take (longestPrefixLen (c :: cs) child.pre))) = c2 :: rest2
                rw [htake, hdrop]]
              exact hmid

/-- C3 (amended): duplicate detection keys on the `TypeKey` alone, not on the
(operation-kind, TypeKey) pair — after any successful registration of `key`
into a reachable trie, registering `key` again under either operation kind
hits the "multiple handlers registered for the same command" panic. -/
theorem insert_duplicate_fails {t t' : Node} (op op' : OpType) (key : List Char)
    (hid hid' : Nat) (hr : Reachable t) (hins : t.insert op key hid = .ok t') :
    t'.insert op' key hid' = .error .duplicateHandler :=
  insertF_dup (key.length + 1) t op key hid t' (reachable_inv hr) hins
    (key.length + 1) op' hid' (Nat.lt_succ_self _)

theorem insert_duplicate_fails_witness :
    exampleOneKey.insert QUERY ("CreateUser".toList) 2 = .error .duplicateHandler :=
  @insert_duplicate_fails emptyNode exampleOneKey ACTION QUERY ("CreateUser".toList) 1 2
    ⟨[], by decide, rfl⟩ rfl

/-- A registration with a nonempty key never touches the entry of the node it
starts from: the handler lands on a descendant. -/
theorem insertF_entry : ∀ (fuel : Nat) (n : Node) (op : OpType) (c : Char)
    (cs : List Char) (hid : Nat) (n' : Node),
    insertF fuel n op (c :: cs) hid = .ok n' → n'.entry = n.entry := by
  intro fuel n op c cs hid n' h
  cases fuel with
  | zero => cases h
  | succ f =>
    simp only [insertF] at h
    split at h
    · injection h with h2
      subst h2
      rfl
    · split at h
      · split at h
        · cases h
        · split at h
          · cases h
          · injection h with h2
            subst h2
            rfl
      · split at h
        · cases h
        · split at h
          · cases h
          · injection h with h2
            subst h2
            rfl

theorem foldlM_insert_entry : ∀ (ops : List (OpType × List Char × Nat)) (init t : Node),
    (∀ x ∈ ops, x.2.1 ≠ []) →
    (ops.foldlM (fun t x => t.insert x.1 x.2.1 x.2.2) init) = .ok t →
    t.entry = init.entry := by
  intro ops
  induction ops with
  | nil =>
    intro init t _ hf
    injection hf with h2
    subst h2
    rfl
  | cons x rest ih =>
    intro init t hne hf
    rw [List.foldlM_cons] at hf
    cases hins : init.insert x.1 x.2.1 x.2.2 with
    | error e =>
      rw [hins] at hf
      cases hf
    | ok mid =>
      rw [hins] at hf
      have hkey := hne x (List.mem_cons_self x rest)
      have hmid : mid.entry = init.entry := by
        cases hk : x.2.1 with
        | nil => exact absurd hk hkey
        | cons c cs =>
          rw [Node.insert, hk] at hins
          exact insertF_entry _ init x.1 c cs x.2.2 mid hins
      rw [ih mid t (fun y hy => hne y (List.mem_cons_of_mem x hy)) hf, hmid]

/-- The root of every reachable trie carries no handler: type keys are
nonempty, so every handler sits strictly below the root. -/
theorem reachable_entry {t : Node} (hr : Reachable t) : t.entry = none := by
  obtain ⟨ops, hne, hb⟩ := hr
  rw [foldlM_insert_entry ops emptyNode t hne hb]
  rfl

/-- Under the invariant, looking up the empty string finds nothing: every
child prefix is nonempty, so the prefix check fails at the first step. -/
theorem findRouteF_empty : ∀ (fuel : Nat) (n : Node) (op : OpType),
    Inv n → findRouteF fuel n op [] = none := by
  intro fuel n op hinv
  cases fuel with
  | zero => rfl
  | succ f =>
    simp only [findRouteF]
    rw [findEdge_eq_getEdgeL n.children zeroByte hinv.sorted]
    cases hge : getEdgeL zeroByte n.children with
    | none => simp [hge]
    | some xn =>
      obtain ⟨hmem, _⟩ := getEdgeL_mem hge
      have hpre := (hinv.pre_facts xn hmem).1
      have hp : hasPrefixCh [] xn.pre = false := by
        cases hxp : xn.pre with
        | nil => exact absurd hxp hpre
        | cons a as => rfl
      simp [hge, hp]

/-- Soundness of `findRoute` against the spec's descent: whatever node it
returns, the descent derivation exists. -/
theorem findRouteF_sound : ∀ (fuel : Nat) (n : Node) (op : OpType)
    (key : List Char) (r : Node),
    Inv n → findRouteF fuel n op key = some r → SpecFound op n key r := by
  intro fuel
  induction fuel with
  | zero =>
    intro n op key r _ h
    cases h
  | succ f ih =>
    intro n op key r hinv h
    cases key with
    | nil =>
      rw [findRouteF_empty (f + 1) n op hinv] at h
      cases h
    | cons b bs =>
      simp only [findRouteF] at h
      rw [findEdge_eq_getEdgeL n.children b hinv.sorted] at h
      cases hge : getEdgeL b n.children with
      | none =>
        simp only [hge] at h
        cases h
      | some xn =>
        simp only [hge] at h
        obtain ⟨hmem, hlab⟩ := getEdgeL_mem hge
        by_cases hp : hasPrefixCh (b :: bs) xn.pre = true
        · rw [if_pos hp] at h
          by_cases hemp : (((b :: bs).drop xn.pre.length).isEmpty
              && entryMatches xn op) = true
          · have he : ((b :: bs).drop xn.pre.length).isEmpty = true := by
              cases hb1 : ((b :: bs).drop xn.pre.length).isEmpty
              · rw [hb1, Bool.false_and] at hemp
                cases hemp
              · rfl
            have hm : entryMatches xn op = true := by
              rw [he, Bool.true_and] at hemp
              exact hemp
            have hnil : (b :: bs).drop xn.pre.length = [] := by
              cases hd : (b :: bs).drop xn.pre.length with
              | nil => rfl
              | cons y ys =>
                rw [hd] at he
                cases he
            rw [if_pos hemp] at h
            injection h with h2
            subst h2
            exact SpecFound.step n _ _ b bs hmem hlab hp
              (by rw [hnil]; exact SpecFound.here _ hm)
          · rw [if_neg hemp] at h
            exact SpecFound.step n xn r b bs hmem hlab hp
              (ih xn op _ r (hinv.children_inv xn hmem) h)
        · rw [if_neg hp] at h
          cases h

/-- The spec's descent on an exhausted key succeeds only in place, at a node
whose handler matches the requested kind. -/
theorem specFound_nil {op : OpType} {n r : Node} (h : SpecFound op n [] r) :
    r = n ∧ entryMatches n op = true := by
  cases h with
  | here _ hm => exact ⟨rfl, hm⟩

/-- Completeness of `findRoute` against the spec's descent for nonempty
keys: any derivable match is returned, given fuel beyond the key length. -/
theorem findRouteF_complete : ∀ (op : OpType) (n : Node) (key : List Char)
    (r : Node), SpecFound op n key r → Inv n → key ≠ [] →
    ∀ fuel, key.length < fuel → findRouteF fuel n op key = some r := by
  intro op n key r h
  induction h with
  | here m hm =>
    intro _ hne
    exact absurd rfl hne
  | step m c r b bs hc hl hp hrec ih =>
    intro hinv hne fuel hf
    obtain ⟨f, rfl⟩ : ∃ f, fuel = f + 1 := ⟨fuel - 1, by omega⟩
    have hcinv := hinv.children_inv c hc
    have hcpre := (hinv.pre_facts c hc).1
    have hplen : 1 ≤ c.pre.length := List.length_pos.mpr hcpre
    have hge : getEdgeL b m.children = some c :=
      getEdgeL_of_mem_unique hc hl
        (fun d hd hdl => label_unique hinv.sorted d hd c hc (hdl.trans hl.symm))
    simp only [findRouteF]
    rw [findEdge_eq_getEdgeL m.children b hinv.sorted]
    simp only [hge]
    rw [if_pos hp]
    cases hxs : (b :: bs).drop c.pre.length with
    | nil =>
      obtain ⟨rfl, hm⟩ := specFound_nil (hxs ▸ hrec)
      simp [hm]
    | cons x xs =>
      rw [if_neg (show ¬(((x :: xs).isEmpty && entryMatches c op) = true) by simp)]
      have hlen2 : ((b :: bs).drop c.pre.length).length < f := by
        rw [List.length_drop]
        simp only [List.length_cons] at hf ⊢
        omega
      have hres := ih hcinv (by rw [hxs]; simp) f hlen2
      rw [hxs] at hres
      exact hres

/-- C1: on every reachable trie state, `findRoute(kind, key)` returns a node
exactly when the spec's descent — follow the child labelled with the next
byte, check its stored prefix against the remainder, consume and recurse,
succeed only with the key exhausted at a node holding a handler of the
requested kind — derives that node; in particular every failure mode of the
descent (no matching child, prefix mismatch, key exhausted without a
matching handler, handler of the other kind) yields not-found. -/
theorem findRoute_matches_spec {t : Node} (hr : Reachable t) (op : OpType)
    (key : List Char) (r : Node) :
    t.findRoute op key = some r ↔ SpecFound op t key r := by
  have hinv := reachable_inv hr
  constructor
  · exact findRouteF_sound (key.length + 1) t op key r hinv
  · intro h
    cases key with
    | nil =>
      obtain ⟨_, hm⟩ := specFound_nil h
      have ht := reachable_entry hr
      simp only [entryMatches, ht] at hm
      cases hm
    | cons b bs =>
      exact findRouteF_complete op t (b :: bs) r h hinv (by simp)
        ((b :: bs).length + 1) (Nat.lt_succ_self _)

theorem findRoute_matches_spec_witness :
    SpecFound ACTION exampleTrie ("CreateUser".toList)
      ((exampleTrie.findRoute ACTION "CreateUser".toList).getD emptyNode) :=
  (findRoute_matches_spec ⟨exampleOps, by decide, rfl⟩ ACTION ("CreateUser".toList)
    ((exampleTrie.findRoute ACTION "CreateUser".toList).getD emptyNode)).mp rfl

end Dew
